import Mathlib

/-!
# eopkg-deps: the dependency-graph builder of `internal/package.go`

A shallow embedding of `NewPackage` and `Package.DependencyGraph`.

* The external command `eopkg info --xml <name>` and the XML decoder are
  parameters (`Eopkg`).
* `Package.DependencyGraph` spawns one goroutine per declared dependency and
  waits for all of them (`wg.Wait()`) before the next pop.  The embedding is a
  step function on an explicit state: the main thread runs while no goroutine
  is alive, otherwise a scheduler choice (a natural number, reduced modulo the
  number of live goroutines) picks the goroutine that performs its next action.
  A goroutine has three actions, taken from the source lines 92-98:
  the seen check together with `childPackage, err = NewPackage(..)`, the test
  `err != nil` (a read of the shared variable `err`), and
  `stack.Push(*childPackage)`.
  Reads and writes of shared variables are atomic in this model.
-/

namespace EopkgDeps

/-- Error values, identified with their message (`err.Error()`). -/
abbrev Err := String

/-- Modelled from the spec: the type `Dependency` is declared outside
`package.go`; a reference to a package by name only.  The source builds it as
`&Dependency{current.Name}` and reads `childDep.Name`. -/
structure Dependency where
  Name : String
deriving DecidableEq

/-- RuntimeDependencies represents package dependencies used at runtime. -/
structure RuntimeDependencies where
  Dependencies : List Dependency
deriving DecidableEq

/-- Package represents one of the eopkg archives generated by ypkg. -/
structure Package where
  Name : String
  Component : String
  RuntimeDependencies : RuntimeDependencies
deriving DecidableEq

/-- Names of the declared runtime dependencies of a record, in declared order. -/
def Package.depNames (p : Package) : List String :=
  p.RuntimeDependencies.Dependencies.map Dependency.Name

/-- The outside world of `NewPackage`: `Output name` is the result of running
`eopkg info --xml name` (its standard output, or the error of the command),
`Decode o` is the result of decoding the output `o` into `metadata.Package`. -/
structure Eopkg where
  Output : String → Except Err String
  Decode : String → Except Err Package

/-- NewPackage returns a fully instanciated package from eopkg information.
The result is the Go pair `(p, err)`; `none` is `nil`. -/
def NewPackage (env : Eopkg) (name : String) : Option Package × Option Err :=
  match env.Output name with
  | Except.error e =>
      if e = "exit status 1" then
        (none, some ("Package " ++ name ++ " does not exists"))
      else
        (none, some e)
  | Except.ok o =>
      match env.Decode o with
      | Except.error e => (none, some e)
      | Except.ok pkg => (some pkg, none)

/-- Modelled from the spec: the type `DependencyGraph` and its methods are
declared outside `package.go`.  A graph is the sequence of its node names and
the sequence of its directed edges, both in insertion order. -/
structure DependencyGraph where
  nodes : List String
  edges : List (String × String)
deriving DecidableEq

/-- Modelled from the spec: `AddNode` inserts a node for the name if absent and
is a no-op if the node is present; it never touches the edges. -/
def DependencyGraph.AddNode (d : DependencyGraph) (n : Dependency) : DependencyGraph :=
  if n.Name ∈ d.nodes then d else { d with nodes := d.nodes ++ [n.Name] }

/-- Modelled from the spec: `AddEdge` records the directed edge
`n1.Name -> n2.Name`, whether or not `n2.Name` has a node. -/
def DependencyGraph.AddEdge (d : DependencyGraph) (n1 n2 : Dependency) : DependencyGraph :=
  { d with edges := d.edges ++ [(n1.Name, n2.Name)] }

/-- Modelled from the spec: the type `Stack` is declared outside `package.go`;
a LIFO container of package records, top first. -/
abbrev Stack := List Package

/-- Modelled from the spec: `Push` puts the record on top. -/
def Stack.Push (s : Stack) (p : Package) : Stack := p :: s

/-- Modelled from the spec: `Pop` removes and returns the top record. -/
def Stack.Pop (s : Stack) : Option (Package × Stack) :=
  match s with
  | [] => none
  | p :: rest => some (p, rest)

/-- Modelled from the spec: `IsEmpty` reports whether no work remains. -/
def Stack.IsEmpty (s : Stack) : Bool := s.isEmpty

/-- Program point of a live goroutine of the current iteration. -/
inductive Task where
  /-- launched, nothing executed yet (before line 92) -/
  | start (childDep : Dependency)
  /-- after `childPackage, err = NewPackage(childDep.Name)` (line 94) -/
  | looked (childPackage : Option Package)
  /-- after the test `err != nil` was false (line 95), before line 98 -/
  | pushing (childPackage : Option Package)
deriving DecidableEq

/-- Whether the call is still running, has returned, or has crashed with a
nil-pointer dereference. -/
inductive Status where
  | running
  | returned
  | panicked
deriving DecidableEq

/-- State of one call of `Package.DependencyGraph`.  `calls` and `pops` are
ghost fields: the arguments of the calls of `NewPackage` so far, and the
number of `stack.Pop()` so far. -/
structure State where
  d : DependencyGraph
  stack : Stack
  seen : List String
  err : Option Err
  tasks : List Task
  calls : List String
  pops : Nat
  status : Status
deriving DecidableEq

/-- State after `stack.Push(p)` (line 67). -/
def init (p : Package) : State :=
  { d := { nodes := [], edges := [] }
    stack := Stack.Push [] p
    seen := []
    err := none
    tasks := []
    calls := []
    pops := 0
    status := Status.running }

/-- Replace the task at position `i` by `t`, or remove it when `t` is `none`. -/
def replaceAt : Nat → Option Task → List Task → List Task
  | _, _, [] => []
  | 0, none, _ :: ts => ts
  | 0, some t, _ :: ts => t :: ts
  | i + 1, r, t :: ts => t :: replaceAt i r ts

/-- Lines 72-82: the node and its declared edges, added on the first pop of a
name. -/
def commit (d : DependencyGraph) (current : Package) : DependencyGraph :=
  current.RuntimeDependencies.Dependencies.foldl
    (fun g childDep => g.AddEdge ⟨current.Name⟩ childDep)
    (d.AddNode ⟨current.Name⟩)

/-- One turn of the main thread (lines 68-86, reached only when every goroutine
of the previous iteration is done): leave the loop when the stack is empty,
otherwise pop, commit the record if its name is unseen, and launch one
goroutine per declared dependency. -/
def stepMain (s : State) : State :=
  if Stack.IsEmpty s.stack then { s with status := Status.returned }
  else
    match Stack.Pop s.stack with
    | none => { s with status := Status.panicked }
    | some (current, rest) =>
        if current.Name ∈ s.seen then
          { s with
            stack := rest
            pops := s.pops + 1
            tasks := current.RuntimeDependencies.Dependencies.map Task.start }
        else
          { s with
            stack := rest
            pops := s.pops + 1
            seen := current.Name :: s.seen
            d := commit s.d current
            tasks := current.RuntimeDependencies.Dependencies.map Task.start }

/-- Next action of the goroutine at position `i` (lines 92-98). -/
def stepTask (env : Eopkg) (i : Nat) (s : State) : State :=
  match s.tasks[i]? with
  | none => s
  | some (Task.start childDep) =>
      if childDep.Name ∈ s.seen then
        { s with tasks := replaceAt i none s.tasks }
      else
        { s with
          err := (NewPackage env childDep.Name).2
          tasks := replaceAt i (some (Task.looked (NewPackage env childDep.Name).1)) s.tasks
          calls := s.calls ++ [childDep.Name] }
  | some (Task.looked childPackage) =>
      if s.err.isSome then
        { s with tasks := replaceAt i none s.tasks }
      else
        { s with tasks := replaceAt i (some (Task.pushing childPackage)) s.tasks }
  | some (Task.pushing none) => { s with status := Status.panicked }
  | some (Task.pushing (some p)) =>
      { s with stack := Stack.Push s.stack p, tasks := replaceAt i none s.tasks }

/-- One step of the call under scheduler choice `c`. -/
def step (env : Eopkg) (c : Nat) (s : State) : State :=
  match s.status with
  | Status.running =>
      match s.tasks with
      | [] => stepMain s
      | _ :: _ => stepTask env (c % s.tasks.length) s
  | _ => s

/-- Run the call from state `s` under the schedule `sched`. -/
def run (env : Eopkg) (sched : List Nat) (s : State) : State :=
  sched.foldl (fun st c => step env c st) s

/-- DependencyGraph returns the dependency graph of a package: the state
reached from `init p` under the schedule.  When its status is `returned`, the
Go results are the fields `d` and `err`. -/
def Package.DependencyGraph (env : Eopkg) (p : Package) (sched : List Nat) : State :=
  run env sched (init p)

/-- Package record with the given name and declared dependency names. -/
def mkPackage (name : String) (deps : List String) : Package :=
  { Name := name, Component := "", RuntimeDependencies := ⟨deps.map Dependency.mk⟩ }

/-- A metadata source given by a table: the command prints the name, the
decoder looks it up; names outside the table make the command exit with
status 1. -/
def tableEnv (table : List (String × List String)) : Eopkg :=
  { Output := fun name =>
      if (table.map Prod.fst).contains name then Except.ok name
      else Except.error "exit status 1"
    Decode := fun o =>
      match table.lookup o with
      | some deps => Except.ok (mkPackage o deps)
      | none => Except.error "EOF" }

/-- The record under which a name is committed to the graph: the caller's root
record for the root's name, the result of the lookup for any other name. -/
def recOf (env : Eopkg) (root : Package) (n : String) : Option Package :=
  if n = root.Name then some root else (NewPackage env n).1

/-- Names reachable from the root through declared runtime dependencies, the
root included. -/
inductive Reach (env : Eopkg) (root : Package) : String → Prop where
  | root : Reach env root root.Name
  | dep {n : String} {p : Package} {c : String} :
      Reach env root n → recOf env root n = some p → c ∈ p.depNames → Reach env root c

/-- Edges declared by the record of a name. -/
def edgesOf (env : Eopkg) (root : Package) (n : String) : List (String × String) :=
  match recOf env root n with
  | some p => p.depNames.map (fun c => (n, c))
  | none => []

/-- Edges declared by the records of a list of names, in order. -/
def edgesFrom (env : Eopkg) (root : Package) : List String → List (String × String)
  | [] => []
  | n :: ns => edgesOf env root n ++ edgesFrom env root ns

/-- Number of names of `univ` that are not in `seen`. -/
def unseen (univ seen : List String) : Nat :=
  univ.countP (fun n => decide (n ∉ seen))

/-- Largest number of declared dependencies among the records of `univ`. -/
def maxDeps (env : Eopkg) (root : Package) : List String → Nat
  | [] => 0
  | n :: ns =>
      max (match recOf env root n with
           | some p => p.RuntimeDependencies.Dependencies.length
           | none => 0)
          (maxDeps env root ns)

/-- Budget of steps of a stack record whose name is unseen while `u` names are
unseen, when no record declares more than `D` dependencies. -/
def budget (D : Nat) : Nat → Nat
  | 0 => 0
  | u + 1 => 1 + D * (budget D u + 3)

/-- Budget of a stack record. -/
def recWeight (D u : Nat) (seen : List String) (r : Package) : Nat :=
  if r.Name ∈ seen then budget D (u + 1) else budget D u

/-- Budget of a live goroutine. -/
def taskWeight (D u : Nat) : Task → Nat
  | Task.start _ => budget D u + 3
  | Task.looked _ => budget D u + 2
  | Task.pushing _ => budget D u + 1

/-- Bound on the number of steps left in a state. -/
def fuel (D : Nat) (univ : List String) (s : State) : Nat :=
  (if s.status = Status.running then 1 else 0)
    + (s.stack.map (recWeight D (unseen univ s.seen) s.seen)).sum
    + (s.tasks.map (taskWeight D (unseen univ s.seen))).sum

/-- The states reached when the goroutine at position `i`, `i + 1`, ... of the
pool acts. -/
def succsFrom (env : Eopkg) (s : State) : Nat → List Task → List State
  | _, [] => []
  | i, _ :: ts => stepTask env i s :: succsFrom env s (i + 1) ts

/-- States one step away, over all scheduler choices. -/
def succs (env : Eopkg) (s : State) : List State :=
  match s.status with
  | Status.running =>
      match s.tasks with
      | [] => [stepMain s]
      | t :: ts => succsFrom env s 0 (t :: ts)
  | _ => [s]

/-- States `n` steps away, over all schedules. -/
def explore (env : Eopkg) : Nat → List State → List State
  | 0, ss => ss
  | n + 1, ss => explore env n (ss.flatMap (succs env))

/-- A record on the stack or in a goroutine is good when its name is reachable
and it is the record of its name. -/
def Good (env : Eopkg) (root : Package) (r : Package) : Prop :=
  Reach env root r.Name ∧ recOf env root r.Name = some r

/-- What the invariant says of a live goroutine. -/
def GoodTask (env : Eopkg) (root : Package) (seen : List String) : Task → Prop
  | Task.start childDep => Reach env root childDep.Name
  | Task.looked (some p) => Good env root p ∧ p.Name ∉ seen
  | Task.looked none => True
  | Task.pushing (some p) => Good env root p ∧ p.Name ∉ seen
  | Task.pushing none => True

/-- Invariant of the call, failures allowed. -/
structure Inv (env : Eopkg) (root : Package) (s : State) : Prop where
  stack_good : ∀ r ∈ s.stack, Good env root r
  tasks_good : ∀ t ∈ s.tasks, GoodTask env root s.seen t
  root_seen : root.Name ∈ s.seen ∨ (s.stack = [root] ∧ s.tasks = [] ∧ s.seen = [])
  seen_reach : ∀ n ∈ s.seen, Reach env root n

/-- The goroutine is responsible for the name `c`. -/
def TaskFor (c : String) : Task → Prop
  | Task.start childDep => childDep.Name = c
  | Task.looked (some p) => p.Name = c
  | Task.looked none => False
  | Task.pushing (some p) => p.Name = c
  | Task.pushing none => False

/-- Invariant of the call when no lookup fails. -/
structure GInv (env : Eopkg) (root : Package) (s : State) : Prop where
  err_nil : s.err = none
  not_panicked : s.status ≠ Status.panicked
  returned_empty : s.status = Status.returned → s.stack = [] ∧ s.tasks = []
  tasks_some : ∀ t ∈ s.tasks, t ≠ Task.looked none ∧ t ≠ Task.pushing none
  nodes_seen : s.d.nodes = s.seen.reverse
  seen_nodup : s.seen.Nodup
  edges_eq : s.d.edges = edgesFrom env root s.d.nodes
  closed : ∀ n ∈ s.seen, ∀ p, recOf env root n = some p → ∀ c ∈ p.depNames,
      c ∈ s.seen ∨ (∃ q ∈ s.stack, q.Name = c) ∨ (∃ t ∈ s.tasks, TaskFor c t)

/-- Whether the goroutine has run line 94 already. -/
def Task.started : Task → Bool
  | Task.start _ => false
  | Task.looked _ => true
  | Task.pushing _ => true

/-- The choice `c` lets no other goroutine act while one is between line 94
and line 98. -/
def atomicChoice (c : Nat) (s : State) : Bool :=
  !(s.tasks.any Task.started) ||
    (match s.tasks[c % s.tasks.length]? with
     | some t => t.started
     | none => false)

/-- Schedules under which every goroutine runs lines 94-98 without another
goroutine acting in between. -/
def atomicRun (env : Eopkg) : List Nat → State → Bool
  | [], _ => true
  | c :: cs, s => atomicChoice c s && atomicRun env cs (step env c s)

/-- What an uninterrupted goroutine knows of the shared `err`. -/
def TaskOk (err : Option Err) : Task → Prop
  | Task.start _ => True
  | Task.looked none => err.isSome = true
  | Task.looked (some _) => err = none
  | Task.pushing none => False
  | Task.pushing (some _) => True

/-- Names reachable from the root along declared dependencies whose lookups
succeed. -/
inductive ReachOk (env : Eopkg) (root : Package) : String → Prop where
  | root : ReachOk env root root.Name
  | dep {n : String} {p : Package} {c : String} :
      ReachOk env root n → recOf env root n = some p → c ∈ p.depNames →
      (NewPackage env c).1 ≠ none → ReachOk env root c

/-- Invariant of the call under uninterrupted goroutines, failures allowed. -/
structure UInv (env : Eopkg) (root : Package) (s : State) : Prop where
  not_panicked : s.status ≠ Status.panicked
  returned_empty : s.status = Status.returned → s.stack = [] ∧ s.tasks = []
  tasks_ok : ∀ t ∈ s.tasks, TaskOk s.err t
  nodes_seen : s.d.nodes = s.seen.reverse
  seen_nodup : s.seen.Nodup
  edges_eq : s.d.edges = edgesFrom env root s.d.nodes
  closed : ∀ n ∈ s.seen, ∀ p, recOf env root n = some p → ∀ c ∈ p.depNames,
      c ∈ s.seen ∨ (∃ q ∈ s.stack, q.Name = c) ∨ (∃ t ∈ s.tasks, TaskFor c t) ∨
        (NewPackage env c).1 = none

/-- A source that answers every lookup with the record `X` declaring `B`:
the record returned for `B` does not carry the requested name. -/
def renamingEnv : Eopkg :=
  { Output := fun name => Except.ok name
    Decode := fun _ => Except.ok (mkPackage "X" ["B"]) }

/-- States of the endless run against `renamingEnv` from the root `A`
declaring `B`. -/
def Looping (s : State) : Prop :=
  s.status = Status.running ∧ "B" ∉ s.seen ∧ s.err = none ∧
  ((s.stack = [mkPackage "A" ["B"]] ∧ s.tasks = []) ∨
   (s.stack = [mkPackage "X" ["B"]] ∧ s.tasks = []) ∨
   (s.stack = [] ∧ s.tasks = [Task.start ⟨"B"⟩]) ∨
   (s.stack = [] ∧ s.tasks = [Task.looked (some (mkPackage "X" ["B"]))]) ∨
   (s.stack = [] ∧ s.tasks = [Task.pushing (some (mkPackage "X" ["B"]))]))

/-- What the diamond claim says of a final state. -/
def DiamondOk (B C D : String) (s : State) : Prop :=
  s.status = Status.returned ∧ s.err = none ∧
  s.calls.count D = 1 ∧ s.d.nodes.count D = 1 ∧
  (s.d.edges.filter (fun e => decide (e.2 = D)) = [(B, D), (C, D)] ∨
   s.d.edges.filter (fun e => decide (e.2 = D)) = [(C, D), (B, D)])

/-- A diamond: `R` declares `B` and `C`, both declare `D`. -/
def diamondEnv : Eopkg := tableEnv [("B", ["D"]), ("C", ["D"]), ("D", [])]

/-- Root record of the diamond. -/
def diamondRoot : Package := mkPackage "R" ["B", "C"]

/-- A source that knows the package `S` only; `F` is unknown to it. -/
def oneKnownEnv : Eopkg := tableEnv [("S", [])]

/-- Root record declaring the unknown `F` and the known `S`. -/
def mixedRoot : Package := mkPackage "A" ["F", "S"]

end EopkgDeps

namespace EopkgDeps

/-! ## Runs -/

theorem run_nil (env : Eopkg) (s : State) : run env [] s = s := rfl

theorem run_cons (env : Eopkg) (c : Nat) (cs : List Nat) (s : State) :
    run env (c :: cs) s = run env cs (step env c s) := rfl

theorem run_append (env : Eopkg) (cs ds : List Nat) (s : State) :
    run env (cs ++ ds) s = run env ds (run env cs s) := by
  simp [run, List.foldl_append]

theorem step_of_not_running (env : Eopkg) (c : Nat) (s : State)
    (h : s.status ≠ Status.running) : step env c s = s := by
  unfold step
  cases hs : s.status <;> simp_all

theorem run_of_not_running (env : Eopkg) (cs : List Nat) (s : State)
    (h : s.status ≠ Status.running) : run env cs s = s := by
  induction cs with
  | nil => rfl
  | cons c cs ih => rw [run_cons, step_of_not_running env c s h, ih]

/-! ## Replacing a goroutine in the pool -/

theorem mem_of_get?_eq {ts : List Task} {i : Nat} {t : Task}
    (h : ts[i]? = some t) : t ∈ ts := by
  induction ts generalizing i with
  | nil => simp at h
  | cons a ts ih =>
    cases i with
    | zero => simp at h; simp [h]
    | succ i => simp at h; exact List.mem_cons_of_mem _ (ih h)

theorem mem_replaceAt {ts : List Task} {i : Nat} {r : Option Task} {x : Task}
    (h : x ∈ replaceAt i r ts) : x ∈ ts ∨ r = some x := by
  induction ts generalizing i with
  | nil => simp [replaceAt] at h
  | cons a ts ih =>
    cases i with
    | zero =>
      cases r with
      | none => simp [replaceAt] at h; exact Or.inl (List.mem_cons_of_mem _ h)
      | some t =>
        simp [replaceAt] at h
        rcases h with h | h
        · exact Or.inr (by rw [h])
        · exact Or.inl (List.mem_cons_of_mem _ h)
    | succ i =>
      simp [replaceAt] at h
      rcases h with h | h
      · exact Or.inl (by simp [h])
      · rcases ih h with h1 | h1
        · exact Or.inl (List.mem_cons_of_mem _ h1)
        · exact Or.inr h1

theorem mem_replaceAt_of_mem {ts : List Task} {i : Nat} {r : Option Task} {t x : Task}
    (hi : ts[i]? = some t) (h : x ∈ ts) : x ∈ replaceAt i r ts ∨ x = t := by
  induction ts generalizing i with
  | nil => simp at h
  | cons a ts ih =>
    cases i with
    | zero =>
      simp at hi
      subst hi
      rcases List.mem_cons.mp h with h | h
      · exact Or.inr h
      · cases r <;> simp [replaceAt, h]
    | succ i =>
      simp at hi
      rcases List.mem_cons.mp h with h | h
      · exact Or.inl (by simp [replaceAt, h])
      · rcases ih hi h with h1 | h1
        · exact Or.inl (by simp [replaceAt, h1])
        · exact Or.inr h1

theorem mem_replaceAt_some {ts : List Task} {i : Nat} {t x : Task}
    (hi : ts[i]? = some t) : x ∈ replaceAt i (some x) ts := by
  induction ts generalizing i with
  | nil => simp at hi
  | cons a ts ih =>
    cases i with
    | zero => simp [replaceAt]
    | succ i =>
      simp at hi
      simp [replaceAt, ih hi]

theorem sum_replaceAt (w : Task → Nat) {ts : List Task} {i : Nat} {t : Task}
    (r : Option Task) (hi : ts[i]? = some t) :
    ((replaceAt i r ts).map w).sum + w t
      = (ts.map w).sum + (match r with | none => 0 | some x => w x) := by
  induction ts generalizing i with
  | nil => simp at hi
  | cons a ts ih =>
    cases i with
    | zero =>
      simp at hi
      subst hi
      cases r <;> simp [replaceAt] <;> omega
    | succ i =>
      simp at hi
      have := ih hi
      simp [replaceAt]
      omega

/-! ## The step budget -/

theorem budget_mono (D : Nat) {u v : Nat} (h : u ≤ v) : budget D u ≤ budget D v := by
  induction v with
  | zero =>
    have : u = 0 := by omega
    subst this
    exact Nat.le_refl _
  | succ v ih =>
    rcases Nat.lt_or_ge u (v + 1) with h1 | h1
    · have h2 : budget D u ≤ budget D v := ih (by omega)
      have h3 : budget D v ≤ budget D (v + 1) := by
        cases v with
        | zero => simp [budget]
        | succ w =>
          have h4 : budget D w ≤ budget D (w + 1) := by
            clear ih h2 h h1
            induction w with
            | zero => simp [budget]
            | succ x ihx =>
              show 1 + D * (budget D x + 3) ≤ 1 + D * (budget D (x + 1) + 3)
              have := Nat.mul_le_mul_left D (Nat.add_le_add_right ihx 3)
              omega
          show 1 + D * (budget D w + 3) ≤ 1 + D * (budget D (w + 1) + 3)
          have := Nat.mul_le_mul_left D (Nat.add_le_add_right h4 3)
          omega
      exact Nat.le_trans h2 h3
    · have : u = v + 1 := by omega
      subst this
      exact Nat.le_refl _

theorem budget_succ (D u : Nat) : budget D (u + 1) = 1 + D * (budget D u + 3) := rfl

theorem unseen_cons_le (univ seen : List String) (n : String) :
    unseen univ (n :: seen) ≤ unseen univ seen := by
  unfold unseen
  induction univ with
  | nil => simp
  | cons a univ ih =>
    rw [List.countP_cons, List.countP_cons]
    by_cases h2 : a ∈ seen
    · have h1 : a ∈ n :: seen := List.mem_cons_of_mem _ h2
      simp only [h1, h2, not_true_eq_false, decide_False, Bool.false_eq_true, if_false]
      omega
    · by_cases h1 : a ∈ n :: seen
      · simp only [h1, h2, not_true_eq_false, not_false_eq_true, decide_True, decide_False,
          Bool.false_eq_true, if_false, if_true]
        omega
      · simp only [h1, h2, not_false_eq_true, decide_True, if_true]
        omega

theorem unseen_cons_lt {univ seen : List String} {n : String}
    (hn : n ∈ univ) (hs : n ∉ seen) : unseen univ (n :: seen) < unseen univ seen := by
  induction univ with
  | nil => simp at hn
  | cons a univ ih =>
    have hle := unseen_cons_le univ seen n
    unfold unseen at hle ih ⊢
    rw [List.countP_cons, List.countP_cons]
    by_cases ha : a = n
    · subst ha
      have h1 : a ∈ a :: seen := List.mem_cons_self _ _
      simp only [h1, hs, not_true_eq_false, not_false_eq_true, decide_True, decide_False,
        Bool.false_eq_true, if_false, if_true]
      omega
    · have hn1 : n ∈ univ := by
        rcases List.mem_cons.mp hn with h | h
        · exact absurd h.symm ha
        · exact h
      have hlt := ih hn1
      by_cases h2 : a ∈ seen
      · have h1 : a ∈ n :: seen := List.mem_cons_of_mem _ h2
        simp only [h1, h2, not_true_eq_false, decide_False, Bool.false_eq_true, if_false]
        omega
      · have h1 : a ∉ n :: seen := by
          intro h
          rcases List.mem_cons.mp h with h | h
          · exact ha h
          · exact h2 h
        simp only [h1, h2, not_false_eq_true, decide_True, if_true]
        omega

end EopkgDeps

namespace EopkgDeps

/-! ## Case analysis of one step -/

theorem step_cases (env : Eopkg) (c : Nat) (s : State) (P : State → Prop)
    (hfinal : s.status ≠ Status.running → P s)
    (hret : s.status = Status.running → s.tasks = [] → s.stack = [] →
      P { s with status := Status.returned })
    (hpopSeen : ∀ cur rest, s.status = Status.running → s.tasks = [] →
      s.stack = cur :: rest → cur.Name ∈ s.seen →
      P { s with
          stack := rest
          pops := s.pops + 1
          tasks := cur.RuntimeDependencies.Dependencies.map Task.start })
    (hpopNew : ∀ cur rest, s.status = Status.running → s.tasks = [] →
      s.stack = cur :: rest → cur.Name ∉ s.seen →
      P { s with
          stack := rest
          pops := s.pops + 1
          seen := cur.Name :: s.seen
          d := commit s.d cur
          tasks := cur.RuntimeDependencies.Dependencies.map Task.start })
    (hstartSeen : ∀ (i : Nat) childDep, i = c % s.tasks.length → s.status = Status.running →
      s.tasks[i]? = some (Task.start childDep) → childDep.Name ∈ s.seen →
      P { s with tasks := replaceAt i none s.tasks })
    (hstartNew : ∀ (i : Nat) childDep, i = c % s.tasks.length → s.status = Status.running →
      s.tasks[i]? = some (Task.start childDep) → childDep.Name ∉ s.seen →
      P { s with
          err := (NewPackage env childDep.Name).2
          tasks := replaceAt i (some (Task.looked (NewPackage env childDep.Name).1)) s.tasks
          calls := s.calls ++ [childDep.Name] })
    (hlookedErr : ∀ (i : Nat) childPackage, i = c % s.tasks.length → s.status = Status.running →
      s.tasks[i]? = some (Task.looked childPackage) → s.err.isSome = true →
      P { s with tasks := replaceAt i none s.tasks })
    (hlookedNil : ∀ (i : Nat) childPackage, i = c % s.tasks.length → s.status = Status.running →
      s.tasks[i]? = some (Task.looked childPackage) → s.err = none →
      P { s with tasks := replaceAt i (some (Task.pushing childPackage)) s.tasks })
    (hpushNil : ∀ (i : Nat), i = c % s.tasks.length → s.status = Status.running →
      s.tasks[i]? = some (Task.pushing none) →
      P { s with status := Status.panicked })
    (hpush : ∀ (i : Nat) p, i = c % s.tasks.length → s.status = Status.running →
      s.tasks[i]? = some (Task.pushing (some p)) →
      P { s with stack := Stack.Push s.stack p, tasks := replaceAt i none s.tasks }) :
    P (step env c s) := by
  by_cases hrun : s.status = Status.running
  · cases hts : s.tasks with
    | nil =>
      have h1 : step env c s = stepMain s := by
        unfold step
        rw [hrun, hts]
      rw [h1]
      cases hst : s.stack with
      | nil =>
        have h2 : stepMain s = { s with status := Status.returned } := by
          unfold stepMain
          simp [hst, Stack.IsEmpty]
        rw [h2]
        exact hret hrun hts hst
      | cons cur rest =>
        by_cases hseen : cur.Name ∈ s.seen
        · have h2 : stepMain s = { s with
              stack := rest
              pops := s.pops + 1
              tasks := cur.RuntimeDependencies.Dependencies.map Task.start } := by
            unfold stepMain
            simp [hst, Stack.IsEmpty, Stack.Pop, hseen]
          rw [h2]
          exact hpopSeen cur rest hrun hts hst hseen
        · have h2 : stepMain s = { s with
              stack := rest
              pops := s.pops + 1
              seen := cur.Name :: s.seen
              d := commit s.d cur
              tasks := cur.RuntimeDependencies.Dependencies.map Task.start } := by
            unfold stepMain
            simp [hst, Stack.IsEmpty, Stack.Pop, hseen]
          rw [h2]
          exact hpopNew cur rest hrun hts hst hseen
    | cons t0 ts =>
      have h1 : step env c s = stepTask env (c % s.tasks.length) s := by
        unfold step
        rw [hrun]
        simp only
        rw [hts]
      rw [h1]
      have hlt : c % s.tasks.length < s.tasks.length :=
        Nat.mod_lt _ (by rw [hts]; simp)
      have hget : s.tasks[c % s.tasks.length]? = some (s.tasks[c % s.tasks.length]) :=
        List.getElem?_eq_getElem hlt
      generalize hti : s.tasks[c % s.tasks.length] = t at hget
      generalize hic : c % s.tasks.length = i at hlt hget
      cases t with
      | start childDep =>
        by_cases hseen : childDep.Name ∈ s.seen
        · have h2 : stepTask env i s = { s with tasks := replaceAt i none s.tasks } := by
            unfold stepTask
            rw [hget]
            simp [hseen]
          rw [h2]
          exact hstartSeen i childDep hic.symm hrun hget hseen
        · have h2 : stepTask env i s = { s with
              err := (NewPackage env childDep.Name).2
              tasks := replaceAt i (some (Task.looked (NewPackage env childDep.Name).1)) s.tasks
              calls := s.calls ++ [childDep.Name] } := by
            unfold stepTask
            rw [hget]
            simp [hseen]
          rw [h2]
          exact hstartNew i childDep hic.symm hrun hget hseen
      | looked childPackage =>
        cases herr : s.err with
        | none =>
          have h2 : stepTask env i s
              = { s with tasks := replaceAt i (some (Task.pushing childPackage)) s.tasks } := by
            unfold stepTask
            rw [hget]
            simp [herr]
          rw [h2]
          exact hlookedNil i childPackage hic.symm hrun hget herr
        | some e =>
          have h2 : stepTask env i s = { s with tasks := replaceAt i none s.tasks } := by
            unfold stepTask
            rw [hget]
            simp [herr]
          rw [h2]
          exact hlookedErr i childPackage hic.symm hrun hget (by simp [herr])
      | pushing childPackage =>
        cases childPackage with
        | none =>
          have h2 : stepTask env i s = { s with status := Status.panicked } := by
            unfold stepTask
            rw [hget]
          rw [h2]
          exact hpushNil i hic.symm hrun hget
        | some p =>
          have h2 : stepTask env i s
              = { s with stack := Stack.Push s.stack p, tasks := replaceAt i none s.tasks } := by
            unfold stepTask
            rw [hget]
          rw [h2]
          exact hpush i p hic.symm hrun hget
  · rw [step_of_not_running env c s hrun]
    exact hfinal hrun

end EopkgDeps

namespace EopkgDeps

/-! ## The invariant -/

theorem recOf_root (env : Eopkg) (root : Package) : recOf env root root.Name = some root := by
  simp [recOf]

theorem recOf_of_ne (env : Eopkg) (root : Package) {n : String} (h : n ≠ root.Name) :
    recOf env root n = (NewPackage env n).1 := by
  simp [recOf, h]

theorem good_root (env : Eopkg) (root : Package) : Good env root root :=
  ⟨Reach.root, recOf_root env root⟩

theorem inv_init (env : Eopkg) (root : Package) : Inv env root (init root) where
  stack_good := by
    intro r hr
    simp [init, Stack.Push] at hr
    rw [hr]
    exact good_root env root
  tasks_good := by
    intro t ht
    simp [init] at ht
  root_seen := Or.inr (by simp [init, Stack.Push])
  seen_reach := by
    intro n hn
    simp [init] at hn

theorem reach_child {env : Eopkg} {root cur : Package} (hcur : Good env root cur)
    {childDep : Dependency} (h : childDep ∈ cur.RuntimeDependencies.Dependencies) :
    Reach env root childDep.Name :=
  Reach.dep hcur.1 hcur.2 (List.mem_map_of_mem _ h)

theorem inv_step {env : Eopkg} {root : Package}
    (hname : ∀ n p, Reach env root n → n ≠ root.Name →
      (NewPackage env n).1 = some p → p.Name = n)
    (c : Nat) {s : State} (hs : Inv env root s) : Inv env root (step env c s) := by
  refine step_cases env c s (Inv env root) ?_ ?_ ?_ ?_ ?_ ?_ ?_ ?_ ?_ ?_
  · intro _
    exact hs
  · intro _ _ _
    exact ⟨hs.stack_good, hs.tasks_good, hs.root_seen, hs.seen_reach⟩
  · intro cur rest _ hts hst hseen
    have hcur : Good env root cur := hs.stack_good cur (by rw [hst]; simp)
    refine ⟨?_, ?_, ?_, hs.seen_reach⟩
    · intro r hr
      exact hs.stack_good r (by rw [hst]; exact List.mem_cons_of_mem _ hr)
    · intro t ht
      obtain ⟨childDep, hd, rfl⟩ := List.mem_map.mp ht
      exact reach_child hcur hd
    · rcases hs.root_seen with h | ⟨_, _, h⟩
      · exact Or.inl h
      · rw [h] at hseen
        simp at hseen
  · intro cur rest _ hts hst hseen
    have hcur : Good env root cur := hs.stack_good cur (by rw [hst]; simp)
    refine ⟨?_, ?_, ?_, ?_⟩
    · intro r hr
      exact hs.stack_good r (by rw [hst]; exact List.mem_cons_of_mem _ hr)
    · intro t ht
      obtain ⟨childDep, hd, rfl⟩ := List.mem_map.mp ht
      exact reach_child hcur hd
    · rcases hs.root_seen with h | ⟨h, _, _⟩
      · exact Or.inl (List.mem_cons_of_mem _ h)
      · rw [h] at hst
        simp at hst
        left
        simp [hst.1]
    · intro n hn
      rcases List.mem_cons.mp hn with h | h
      · rw [h]
        exact hcur.1
      · exact hs.seen_reach n h
  · intro i childDep _ _ hget _
    refine ⟨hs.stack_good, ?_, ?_, hs.seen_reach⟩
    · intro t ht
      rcases mem_replaceAt ht with h | h
      · exact hs.tasks_good t h
      · simp at h
    · rcases hs.root_seen with h | ⟨_, h, _⟩
      · exact Or.inl h
      · rw [h] at hget
        simp at hget
  · intro i childDep _ _ hget hseen
    have hroot : root.Name ∈ s.seen := by
      rcases hs.root_seen with h | ⟨_, h, _⟩
      · exact h
      · rw [h] at hget
        simp at hget
    have hreach : Reach env root childDep.Name :=
      hs.tasks_good _ (mem_of_get?_eq hget)
    have hne : childDep.Name ≠ root.Name := by
      intro h
      rw [h] at hseen
      exact hseen hroot
    refine ⟨hs.stack_good, ?_, Or.inl hroot, hs.seen_reach⟩
    intro t ht
    rcases mem_replaceAt ht with h | h
    · exact hs.tasks_good t h
    · simp at h
      subst h
      cases hp : (NewPackage env childDep.Name).1 with
      | none => trivial
      | some p =>
        have hpn : p.Name = childDep.Name := hname _ p hreach hne hp
        refine ⟨⟨?_, ?_⟩, ?_⟩
        · rw [hpn]
          exact hreach
        · rw [hpn, recOf_of_ne env root hne, hp]
        · rw [hpn]
          exact hseen
  · intro i childPackage _ _ hget _
    refine ⟨hs.stack_good, ?_, ?_, hs.seen_reach⟩
    · intro t ht
      rcases mem_replaceAt ht with h | h
      · exact hs.tasks_good t h
      · simp at h
    · rcases hs.root_seen with h | ⟨_, h, _⟩
      · exact Or.inl h
      · rw [h] at hget
        simp at hget
  · intro i childPackage _ _ hget _
    have hold := hs.tasks_good _ (mem_of_get?_eq hget)
    refine ⟨hs.stack_good, ?_, ?_, hs.seen_reach⟩
    · intro t ht
      rcases mem_replaceAt ht with h | h
      · exact hs.tasks_good t h
      · simp at h
        subst h
        cases childPackage with
        | none => trivial
        | some p => exact hold
    · rcases hs.root_seen with h | ⟨_, h, _⟩
      · exact Or.inl h
      · rw [h] at hget
        simp at hget
  · intro i _ _ _
    exact ⟨hs.stack_good, hs.tasks_good, hs.root_seen, hs.seen_reach⟩
  · intro i p _ _ hget
    have hold : Good env root p ∧ p.Name ∉ s.seen := hs.tasks_good _ (mem_of_get?_eq hget)
    refine ⟨?_, ?_, ?_, hs.seen_reach⟩
    · intro r hr
      simp [Stack.Push] at hr
      rcases hr with h | h
      · rw [h]
        exact hold.1
      · exact hs.stack_good r h
    · intro t ht
      rcases mem_replaceAt ht with h | h
      · exact hs.tasks_good t h
      · simp at h
    · rcases hs.root_seen with h | ⟨_, h, _⟩
      · exact Or.inl h
      · rw [h] at hget
        simp at hget

theorem inv_run {env : Eopkg} {root : Package}
    (hname : ∀ n p, Reach env root n → n ≠ root.Name →
      (NewPackage env n).1 = some p → p.Name = n)
    (cs : List Nat) {s : State} (hs : Inv env root s) : Inv env root (run env cs s) := by
  induction cs generalizing s with
  | nil => exact hs
  | cons c cs ih => exact ih (inv_step hname c hs)

end EopkgDeps

namespace EopkgDeps

/-! ## Every step uses up fuel -/

theorem le_maxDeps (env : Eopkg) (root : Package) {univ : List String} {n : String}
    {p : Package} (hn : n ∈ univ) (hp : recOf env root n = some p) :
    p.RuntimeDependencies.Dependencies.length ≤ maxDeps env root univ := by
  induction univ with
  | nil => simp at hn
  | cons a univ ih =>
    rcases List.mem_cons.mp hn with h | h
    · subst h
      simp only [maxDeps, hp]
      exact Nat.le_max_left _ _
    · simp only [maxDeps]
      exact Nat.le_trans (ih h) (Nat.le_max_right _ _)

theorem sum_start (D u : Nat) (deps : List Dependency) :
    ((deps.map Task.start).map (taskWeight D u)).sum = deps.length * (budget D u + 3) := by
  induction deps with
  | nil => simp
  | cons a deps ih =>
    simp only [List.map_cons, List.sum_cons, List.length_cons, ih, taskWeight]
    rw [Nat.succ_mul]
    omega

theorem budget_le_recWeight (D u : Nat) (seen : List String) (r : Package) :
    budget D u ≤ recWeight D u seen r := by
  unfold recWeight
  split
  · exact budget_mono D (Nat.le_succ u)
  · exact Nat.le_refl _

theorem recWeight_le_budget (D u : Nat) (seen : List String) (r : Package) :
    recWeight D u seen r ≤ budget D (u + 1) := by
  unfold recWeight
  split
  · exact Nat.le_refl _
  · exact budget_mono D (Nat.le_succ u)

theorem sum_recWeight_le (D : Nat) {u v : Nat} (h : v < u) (seen seen2 : List String)
    (st : List Package) :
    (st.map (recWeight D v seen2)).sum ≤ (st.map (recWeight D u seen)).sum := by
  induction st with
  | nil => simp
  | cons r st ih =>
    simp only [List.map_cons, List.sum_cons]
    have h1 := recWeight_le_budget D v seen2 r
    have h2 : budget D (v + 1) ≤ budget D u := budget_mono D h
    have h3 := budget_le_recWeight D u seen r
    omega

theorem launch_le {D k X : Nat} (hk : k ≤ D) : k * (X + 3) < 1 + D * (X + 3) := by
  have := Nat.mul_le_mul_right (X + 3) hk
  omega

theorem fuel_step_lt {env : Eopkg} {root : Package} {univ : List String}
    (hfin : ∀ n, Reach env root n → n ∈ univ)
    (c : Nat) {s : State} (hs : Inv env root s) (hrun : s.status = Status.running) :
    fuel (maxDeps env root univ) univ (step env c s) < fuel (maxDeps env root univ) univ s := by
  have hdeps : ∀ r, Good env root r →
      r.RuntimeDependencies.Dependencies.length ≤ maxDeps env root univ :=
    fun r hr => le_maxDeps env root (hfin _ hr.1) hr.2
  generalize maxDeps env root univ = D at hdeps ⊢
  refine step_cases env c s (fun x => fuel D univ x < fuel D univ s) ?_ ?_ ?_ ?_ ?_ ?_ ?_ ?_ ?_ ?_
  · intro h
    exact absurd hrun h
  · intro _ _ _
    simp [fuel, hrun]
  · intro cur rest _ hts hst hseen
    have hcur : Good env root cur := hs.stack_good cur (by rw [hst]; simp)
    have hk := launch_le (X := budget D (unseen univ s.seen)) (hdeps cur hcur)
    simp only [fuel, hrun, hst, hts, List.map_cons, List.sum_cons, List.map_nil, List.sum_nil,
      sum_start, if_true]
    have hw : recWeight D (unseen univ s.seen) s.seen cur
        = 1 + D * (budget D (unseen univ s.seen) + 3) := by
      simp [recWeight, hseen, budget_succ]
    rw [hw]
    omega
  · intro cur rest _ hts hst hseen
    have hcur : Good env root cur := hs.stack_good cur (by rw [hst]; simp)
    have hlt : unseen univ (cur.Name :: s.seen) < unseen univ s.seen :=
      unseen_cons_lt (hfin _ hcur.1) hseen
    have hk := launch_le (X := budget D (unseen univ (cur.Name :: s.seen))) (hdeps cur hcur)
    have hb : budget D (unseen univ (cur.Name :: s.seen) + 1) ≤ budget D (unseen univ s.seen) :=
      budget_mono D hlt
    rw [budget_succ] at hb
    have hrest := sum_recWeight_le D hlt s.seen (cur.Name :: s.seen) rest
    simp only [fuel, hrun, hst, hts, List.map_cons, List.sum_cons, List.map_nil, List.sum_nil,
      sum_start, if_true]
    have hw : recWeight D (unseen univ s.seen) s.seen cur = budget D (unseen univ s.seen) := by
      simp [recWeight, hseen]
    rw [hw]
    omega
  · intro i childDep _ _ hget _
    have h := sum_replaceAt (taskWeight D (unseen univ s.seen)) none hget
    simp only [taskWeight] at h
    simp only [fuel, hrun, if_true]
    omega
  · intro i childDep _ _ hget _
    have h := sum_replaceAt (taskWeight D (unseen univ s.seen))
      (some (Task.looked (NewPackage env childDep.Name).1)) hget
    simp only [taskWeight] at h
    simp only [fuel, hrun, if_true]
    omega
  · intro i childPackage _ _ hget _
    have h := sum_replaceAt (taskWeight D (unseen univ s.seen)) none hget
    simp only [taskWeight] at h
    simp only [fuel, hrun, if_true]
    omega
  · intro i childPackage _ _ hget _
    have h := sum_replaceAt (taskWeight D (unseen univ s.seen))
      (some (Task.pushing childPackage)) hget
    simp only [taskWeight] at h
    simp only [fuel, hrun, if_true]
    omega
  · intro i _ _ _
    simp [fuel, hrun]
  · intro i p _ _ hget
    have hold : Good env root p ∧ p.Name ∉ s.seen := hs.tasks_good _ (mem_of_get?_eq hget)
    have h := sum_replaceAt (taskWeight D (unseen univ s.seen)) none hget
    simp only [taskWeight] at h
    have hw : recWeight D (unseen univ s.seen) s.seen p = budget D (unseen univ s.seen) := by
      simp [recWeight, hold.2]
    simp only [fuel, hrun, if_true, Stack.Push, List.map_cons, List.sum_cons, hw]
    omega

/-- A run that is given at least `fuel` steps has stopped. -/
theorem run_stops {env : Eopkg} {root : Package} {univ : List String}
    (hfin : ∀ n, Reach env root n → n ∈ univ)
    (hname : ∀ n p, Reach env root n → n ≠ root.Name →
      (NewPackage env n).1 = some p → p.Name = n)
    (cs : List Nat) {s : State} (hs : Inv env root s)
    (hlen : fuel (maxDeps env root univ) univ s ≤ cs.length) :
    (run env cs s).status ≠ Status.running := by
  induction cs generalizing s with
  | nil =>
    intro h
    rw [run_nil] at h
    simp [fuel, h] at hlen
  | cons c cs ih =>
    by_cases hrun : s.status = Status.running
    · rw [run_cons]
      apply ih (inv_step hname c hs)
      have := fuel_step_lt hfin c hs hrun
      simp only [List.length_cons] at hlen
      omega
    · rw [run_of_not_running env _ s hrun]
      exact hrun

end EopkgDeps

namespace EopkgDeps

/-! ## The graph that is committed -/

theorem foldl_addEdge (from_ : Dependency) (deps : List Dependency) (g : DependencyGraph) :
    deps.foldl (fun g childDep => g.AddEdge from_ childDep) g
      = { nodes := g.nodes
          edges := g.edges ++ deps.map (fun c => (from_.Name, c.Name)) } := by
  induction deps generalizing g with
  | nil => simp
  | cons a deps ih =>
    rw [List.foldl_cons, ih]
    simp [DependencyGraph.AddEdge]

theorem commit_eq (d : DependencyGraph) (cur : Package) (h : cur.Name ∉ d.nodes) :
    commit d cur
      = { nodes := d.nodes ++ [cur.Name]
          edges := d.edges ++ cur.depNames.map (fun c => (cur.Name, c)) } := by
  unfold commit
  rw [foldl_addEdge]
  simp [DependencyGraph.AddNode, h, Package.depNames, List.map_map, Function.comp_def]

theorem edgesFrom_append (env : Eopkg) (root : Package) (xs ys : List String) :
    edgesFrom env root (xs ++ ys) = edgesFrom env root xs ++ edgesFrom env root ys := by
  induction xs with
  | nil => simp [edgesFrom]
  | cons a xs ih => simp [edgesFrom, ih]

theorem edgesOf_src (env : Eopkg) (root : Package) {n : String} {e : String × String}
    (h : e ∈ edgesOf env root n) : e.1 = n := by
  unfold edgesOf at h
  cases hp : recOf env root n with
  | none => simp [hp] at h
  | some p =>
    simp only [hp, List.mem_map] at h
    obtain ⟨c, _, rfl⟩ := h
    rfl

theorem mem_edgesFrom (env : Eopkg) (root : Package) {ns : List String}
    {e : String × String} (h : e ∈ edgesFrom env root ns) : e.1 ∈ ns := by
  induction ns with
  | nil => simp [edgesFrom] at h
  | cons a ns ih =>
    simp only [edgesFrom, List.mem_append] at h
    rcases h with h | h
    · rw [edgesOf_src env root h]
      exact List.mem_cons_self _ _
    · exact List.mem_cons_of_mem _ (ih h)

theorem filter_edgesOf_self (env : Eopkg) (root : Package) (n : String) :
    (edgesOf env root n).filter (fun e => decide (e.1 = n)) = edgesOf env root n := by
  apply List.filter_eq_self.mpr
  intro e he
  simp [edgesOf_src env root he]

theorem filter_edgesOf_ne (env : Eopkg) (root : Package) {a n : String} (h : a ≠ n) :
    (edgesOf env root a).filter (fun e => decide (e.1 = n)) = [] := by
  apply List.filter_eq_nil_iff.mpr
  intro e he
  simp [edgesOf_src env root he, h]

theorem filter_edgesFrom_not_mem (env : Eopkg) (root : Package) {ns : List String}
    {n : String} (h : n ∉ ns) :
    (edgesFrom env root ns).filter (fun e => decide (e.1 = n)) = [] := by
  apply List.filter_eq_nil_iff.mpr
  intro e he
  have := mem_edgesFrom env root he
  simp only [decide_eq_true_eq]
  intro h1
  rw [h1] at this
  exact h this

theorem filter_edgesFrom (env : Eopkg) (root : Package) {ns : List String} {n : String}
    (hnd : ns.Nodup) (hn : n ∈ ns) :
    (edgesFrom env root ns).filter (fun e => decide (e.1 = n)) = edgesOf env root n := by
  induction ns with
  | nil => simp at hn
  | cons a ns ih =>
    have hnd2 := List.nodup_cons.mp hnd
    simp only [edgesFrom, List.filter_append]
    by_cases ha : a = n
    · subst ha
      rw [filter_edgesOf_self, filter_edgesFrom_not_mem env root hnd2.1]
      simp
    · have hn2 : n ∈ ns := by
        rcases List.mem_cons.mp hn with h | h
        · exact absurd h.symm ha
        · exact h
      rw [filter_edgesOf_ne env root ha, ih hnd2.2 hn2]
      simp

theorem ginv_init (env : Eopkg) (root : Package) : GInv env root (init root) where
  err_nil := rfl
  not_panicked := by simp [init]
  returned_empty := by simp [init]
  tasks_some := by simp [init]
  nodes_seen := by simp [init]
  seen_nodup := by simp [init]
  edges_eq := by simp [init, edgesFrom]
  closed := by simp [init]

end EopkgDeps

namespace EopkgDeps

/-! ## The invariant when no lookup fails -/

theorem ginv_step {env : Eopkg} {root : Package}
    (hok : ∀ n, Reach env root n → n ≠ root.Name →
      ∃ p, NewPackage env n = (some p, none) ∧ p.Name = n)
    (c : Nat) {s : State} (hi : Inv env root s) (hs : GInv env root s) :
    GInv env root (step env c s) := by
  refine step_cases env c s (GInv env root) ?_ ?_ ?_ ?_ ?_ ?_ ?_ ?_ ?_ ?_
  · intro _
    exact hs
  · intro _ hts hst
    exact ⟨hs.err_nil, by simp, fun _ => ⟨hst, hts⟩, hs.tasks_some, hs.nodes_seen,
      hs.seen_nodup, hs.edges_eq, hs.closed⟩
  · intro cur rest hrun hts hst hseen
    refine ⟨hs.err_nil, by simp [hrun], by simp [hrun], ?_, hs.nodes_seen, hs.seen_nodup,
      hs.edges_eq, ?_⟩
    · intro t ht
      obtain ⟨childDep, _, rfl⟩ := List.mem_map.mp ht
      simp
    · intro n hn p hp c hc
      rcases hs.closed n hn p hp c hc with h | ⟨q, hq, hqc⟩ | ⟨t, ht, _⟩
      · exact Or.inl h
      · rw [hst] at hq
        rcases List.mem_cons.mp hq with h | h
        · left
          rw [← hqc, h]
          exact hseen
        · exact Or.inr (Or.inl ⟨q, h, hqc⟩)
      · rw [hts] at ht
        simp at ht
  · intro cur rest hrun hts hst hseen
    have hcur : Good env root cur := hi.stack_good cur (by rw [hst]; simp)
    have hnode : cur.Name ∉ s.d.nodes := by
      rw [hs.nodes_seen]
      simpa using hseen
    refine ⟨hs.err_nil, by simp [hrun], by simp [hrun], ?_, ?_, ?_, ?_, ?_⟩
    · intro t ht
      obtain ⟨childDep, _, rfl⟩ := List.mem_map.mp ht
      simp
    · simp [commit_eq s.d cur hnode, hs.nodes_seen]
    · exact List.nodup_cons.mpr ⟨hseen, hs.seen_nodup⟩
    · simp only [commit_eq s.d cur hnode, edgesFrom_append, hs.edges_eq]
      simp [edgesFrom, edgesOf, hcur.2]
    · intro n hn p hp c hc
      rcases List.mem_cons.mp hn with h | h
      · subst h
        rw [hcur.2] at hp
        simp only [Option.some.injEq] at hp
        subst hp
        obtain ⟨childDep, hd, hdc⟩ := List.mem_map.mp hc
        exact Or.inr (Or.inr ⟨Task.start childDep, List.mem_map_of_mem _ hd, hdc⟩)
      · rcases hs.closed n h p hp c hc with h1 | ⟨q, hq, hqc⟩ | ⟨t, ht, _⟩
        · exact Or.inl (List.mem_cons_of_mem _ h1)
        · rw [hst] at hq
          rcases List.mem_cons.mp hq with h2 | h2
          · left
            rw [← hqc, h2]
            exact List.mem_cons_self _ _
          · exact Or.inr (Or.inl ⟨q, h2, hqc⟩)
        · rw [hts] at ht
          simp at ht
  · intro i childDep _ hrun hget hseen
    refine ⟨hs.err_nil, by simp [hrun], by simp [hrun], ?_, hs.nodes_seen, hs.seen_nodup,
      hs.edges_eq, ?_⟩
    · intro t ht
      rcases mem_replaceAt ht with h | h
      · exact hs.tasks_some t h
      · simp at h
    · intro n hn p hp c hc
      rcases hs.closed n hn p hp c hc with h | h | ⟨t, ht, htc⟩
      · exact Or.inl h
      · exact Or.inr (Or.inl h)
      · rcases mem_replaceAt_of_mem (r := none) hget ht with h | h
        · exact Or.inr (Or.inr ⟨t, h, htc⟩)
        · subst h
          left
          simp only [TaskFor] at htc
          rw [← htc]
          exact hseen
  · intro i childDep _ hrun hget hseen
    have hroot : root.Name ∈ s.seen := by
      rcases hi.root_seen with h | ⟨_, h, _⟩
      · exact h
      · rw [h] at hget
        simp at hget
    have hreach : Reach env root childDep.Name :=
      hi.tasks_good _ (mem_of_get?_eq hget)
    have hne : childDep.Name ≠ root.Name := by
      intro h
      rw [h] at hseen
      exact hseen hroot
    obtain ⟨p0, hp0, hp0n⟩ := hok _ hreach hne
    refine ⟨by simp [hp0], by simp [hrun], by simp [hrun], ?_, hs.nodes_seen, hs.seen_nodup,
      hs.edges_eq, ?_⟩
    · intro t ht
      rcases mem_replaceAt ht with h | h
      · exact hs.tasks_some t h
      · simp only [hp0, Option.some.injEq] at h
        subst h
        simp
    · intro n hn p hp c hc
      rcases hs.closed n hn p hp c hc with h | h | ⟨t, ht, htc⟩
      · exact Or.inl h
      · exact Or.inr (Or.inl h)
      · rcases mem_replaceAt_of_mem
          (r := some (Task.looked (NewPackage env childDep.Name).1)) hget ht with h | h
        · exact Or.inr (Or.inr ⟨t, h, htc⟩)
        · subst h
          simp only [TaskFor] at htc
          refine Or.inr (Or.inr ⟨_, mem_replaceAt_some hget, ?_⟩)
          simp only [hp0, TaskFor]
          rw [hp0n, htc]
  · intro i childPackage _ _ _ herr
    rw [hs.err_nil] at herr
    simp at herr
  · intro i childPackage _ hrun hget _
    have hne : childPackage ≠ none := by
      intro h
      rw [h] at hget
      exact (hs.tasks_some _ (mem_of_get?_eq hget)).1 rfl
    refine ⟨hs.err_nil, by simp [hrun], by simp [hrun], ?_, hs.nodes_seen, hs.seen_nodup,
      hs.edges_eq, ?_⟩
    · intro t ht
      rcases mem_replaceAt ht with h | h
      · exact hs.tasks_some t h
      · simp only [Option.some.injEq] at h
        subst h
        simp [hne]
    · intro n hn p hp c hc
      rcases hs.closed n hn p hp c hc with h | h | ⟨t, ht, htc⟩
      · exact Or.inl h
      · exact Or.inr (Or.inl h)
      · rcases mem_replaceAt_of_mem (r := some (Task.pushing childPackage)) hget ht with h | h
        · exact Or.inr (Or.inr ⟨t, h, htc⟩)
        · subst h
          refine Or.inr (Or.inr ⟨_, mem_replaceAt_some hget, ?_⟩)
          cases childPackage with
          | none => simp [TaskFor] at htc
          | some q => exact htc
  · intro i _ _ hget
    exact absurd rfl (hs.tasks_some _ (mem_of_get?_eq hget)).2
  · intro i p _ hrun hget
    refine ⟨hs.err_nil, by simp [hrun], by simp [hrun], ?_, hs.nodes_seen, hs.seen_nodup,
      hs.edges_eq, ?_⟩
    · intro t ht
      rcases mem_replaceAt ht with h | h
      · exact hs.tasks_some t h
      · simp at h
    · intro n hn q hq c hc
      rcases hs.closed n hn q hq c hc with h | ⟨r, hr, hrc⟩ | ⟨t, ht, htc⟩
      · exact Or.inl h
      · exact Or.inr (Or.inl ⟨r, List.mem_cons_of_mem _ hr, hrc⟩)
      · rcases mem_replaceAt_of_mem (r := none) hget ht with h | h
        · exact Or.inr (Or.inr ⟨t, h, htc⟩)
        · subst h
          exact Or.inr (Or.inl ⟨p, List.mem_cons_self _ _, htc⟩)

theorem name_of_ok {env : Eopkg} {root : Package}
    (hok : ∀ n, Reach env root n → n ≠ root.Name →
      ∃ p, NewPackage env n = (some p, none) ∧ p.Name = n) :
    ∀ n p, Reach env root n → n ≠ root.Name →
      (NewPackage env n).1 = some p → p.Name = n := by
  intro n p hr hne hp
  obtain ⟨q, hq, hqn⟩ := hok n hr hne
  rw [hq] at hp
  simp only [Option.some.injEq] at hp
  rw [← hp]
  exact hqn

theorem ginv_run {env : Eopkg} {root : Package}
    (hok : ∀ n, Reach env root n → n ≠ root.Name →
      ∃ p, NewPackage env n = (some p, none) ∧ p.Name = n)
    (cs : List Nat) {s : State} (hi : Inv env root s) (hs : GInv env root s) :
    GInv env root (run env cs s) := by
  induction cs generalizing s with
  | nil => exact hs
  | cons c cs ih => exact ih (inv_step (name_of_ok hok) c hi) (ginv_step hok c hi hs)

/-- At the return, with no failed lookup, the seen names are exactly the
reachable names. -/
theorem reach_seen_of_closed {env : Eopkg} {root : Package} {s : State}
    (hroot : root.Name ∈ s.seen)
    (hcl : ∀ n ∈ s.seen, ∀ p, recOf env root n = some p → ∀ c ∈ p.depNames, c ∈ s.seen)
    {n : String} (hn : Reach env root n) : n ∈ s.seen := by
  induction hn with
  | root => exact hroot
  | dep _ hp hc ih => exact hcl _ ih _ hp _ hc

end EopkgDeps

namespace EopkgDeps

/-! ## Exploring all schedules -/

theorem stepTask_mem_succsFrom (env : Eopkg) (s : State) (ts : List Task) (k i : Nat)
    (h : i < ts.length) : stepTask env (k + i) s ∈ succsFrom env s k ts := by
  induction ts generalizing k i with
  | nil => simp at h
  | cons t ts ih =>
    cases i with
    | zero => simp [succsFrom]
    | succ i =>
      simp only [succsFrom, List.mem_cons]
      right
      have := ih (k + 1) i (by simpa using h)
      rwa [Nat.add_assoc, Nat.add_comm 1 i] at this

theorem step_mem_succs (env : Eopkg) (c : Nat) (s : State) : step env c s ∈ succs env s := by
  unfold step succs
  cases hs : s.status with
  | running =>
    cases hts : s.tasks with
    | nil => simp
    | cons t ts =>
      simp only
      have := stepTask_mem_succsFrom env s (t :: ts) 0 (c % (t :: ts).length)
        (Nat.mod_lt _ (by simp))
      simpa using this
  | returned => simp
  | panicked => simp

theorem run_mem_explore (env : Eopkg) (sched : List Nat) (s : State) (ss : List State)
    (h : s ∈ ss) : run env sched s ∈ explore env sched.length ss := by
  induction sched generalizing s ss with
  | nil => exact h
  | cons c cs ih =>
    rw [run_cons]
    simp only [List.length_cons, explore]
    apply ih
    exact List.mem_flatMap.mpr ⟨s, h, step_mem_succs env c s⟩

/-- When every state `N` steps away has stopped, every schedule of at least
`N` steps ends in one of these states. -/
theorem run_mem_explore_of_stopped (env : Eopkg) (N : Nat) (s : State)
    (hstop : ∀ x ∈ explore env N [s], x.status ≠ Status.running)
    (sched : List Nat) (hlen : N ≤ sched.length) :
    run env sched s ∈ explore env N [s] := by
  have h1 : run env (sched.take N) s ∈ explore env N [s] := by
    have := run_mem_explore env (sched.take N) s [s] (by simp)
    rwa [List.length_take, Nat.min_eq_left hlen] at this
  have h2 : run env sched s = run env (sched.take N) s := by
    conv_lhs => rw [← List.take_append_drop N sched]
    rw [run_append, run_of_not_running env _ _ (hstop _ h1)]
  rw [h2]
  exact h1

end EopkgDeps

namespace EopkgDeps

/-- C3: for a root and a deterministic metadata source in which no lookup of a
reachable name fails, every successful lookup of a reachable name returns a
record of that name, and all reachable names lie in a finite list, there is a
number of steps after which, under every schedule of the lookup goroutines,
`DependencyGraph` has returned with a nil error and a graph whose nodes are
exactly the names reachable from the root (each once), whose edges all start
at a node, and whose edges out of each node are exactly the declared
dependency list of that node's record; so node set and edge set (the pairs
`a -> b` with `a` reachable and `b` declared by the record of `a`) do not
depend on the schedule. -/
theorem dependencyGraph_nodes_edges_exact (env : Eopkg) (root : Package)
    (univ : List String)
    (hfin : ∀ n, Reach env root n → n ∈ univ)
    (hok : ∀ n, Reach env root n → n ≠ root.Name →
      ∃ p, NewPackage env n = (some p, none) ∧ p.Name = n) :
    ∃ N, ∀ sched : List Nat, N ≤ sched.length →
      (root.DependencyGraph env sched).status = Status.returned ∧
      (root.DependencyGraph env sched).err = none ∧
      (root.DependencyGraph env sched).d.nodes.Nodup ∧
      (∀ n, n ∈ (root.DependencyGraph env sched).d.nodes ↔ Reach env root n) ∧
      (∀ e ∈ (root.DependencyGraph env sched).d.edges,
        e.1 ∈ (root.DependencyGraph env sched).d.nodes) ∧
      (∀ n p, Reach env root n → recOf env root n = some p →
        (root.DependencyGraph env sched).d.edges.filter (fun e => decide (e.1 = n))
          = p.depNames.map (fun c => (n, c))) ∧
      (∀ a b, (a, b) ∈ (root.DependencyGraph env sched).d.edges ↔
        (Reach env root a ∧ ∃ p, recOf env root a = some p ∧ b ∈ p.depNames)) := by
  refine ⟨fuel (maxDeps env root univ) univ (init root), ?_⟩
  intro sched hlen
  unfold Package.DependencyGraph
  have hi : Inv env root (run env sched (init root)) :=
    inv_run (name_of_ok hok) sched (inv_init env root)
  have hg : GInv env root (run env sched (init root)) :=
    ginv_run hok sched (inv_init env root) (ginv_init env root)
  have hstop : (run env sched (init root)).status ≠ Status.running :=
    run_stops hfin (name_of_ok hok) sched (inv_init env root) hlen
  generalize run env sched (init root) = s at hi hg hstop
  have hret : s.status = Status.returned := by
    have := hg.not_panicked
    cases h : s.status <;> simp_all
  obtain ⟨hstack, htasks⟩ := hg.returned_empty hret
  have hroot : root.Name ∈ s.seen := by
    rcases hi.root_seen with h | ⟨h, _, _⟩
    · exact h
    · rw [hstack] at h
      simp at h
  have hcl : ∀ n ∈ s.seen, ∀ p, recOf env root n = some p → ∀ c ∈ p.depNames, c ∈ s.seen := by
    intro n hn p hp c hc
    rcases hg.closed n hn p hp c hc with h | ⟨q, hq, _⟩ | ⟨t, ht, _⟩
    · exact h
    · rw [hstack] at hq
      simp at hq
    · rw [htasks] at ht
      simp at ht
  have hnodes : ∀ n, n ∈ s.d.nodes ↔ Reach env root n := by
    intro n
    rw [hg.nodes_seen, List.mem_reverse]
    exact ⟨hi.seen_reach n, fun h => reach_seen_of_closed hroot hcl h⟩
  have hnd : s.d.nodes.Nodup := by
    rw [hg.nodes_seen]
    exact List.nodup_reverse.mpr hg.seen_nodup
  have hsrc : ∀ e ∈ s.d.edges, e.1 ∈ s.d.nodes := by
    intro e he
    rw [hg.edges_eq] at he
    exact mem_edgesFrom env root he
  have hout : ∀ n, Reach env root n →
      s.d.edges.filter (fun e => decide (e.1 = n)) = edgesOf env root n := by
    intro n hn
    rw [hg.edges_eq, filter_edgesFrom env root hnd ((hnodes n).mpr hn)]
  refine ⟨hret, hg.err_nil, hnd, hnodes, hsrc, ?_, ?_⟩
  · intro n p hn hp
    rw [hout n hn]
    simp [edgesOf, hp]
  · intro a b
    constructor
    · intro he
      have ha : Reach env root a := (hnodes a).mp (hsrc _ he)
      have hm : (a, b) ∈ s.d.edges.filter (fun e => decide (e.1 = a)) :=
        List.mem_filter.mpr ⟨he, by simp⟩
      rw [hout a ha] at hm
      refine ⟨ha, ?_⟩
      unfold edgesOf at hm
      cases hp : recOf env root a with
      | none => simp [hp] at hm
      | some p =>
        refine ⟨p, rfl, ?_⟩
        simpa [hp] using hm
    · rintro ⟨ha, p, hp, hb⟩
      have hm : (a, b) ∈ s.d.edges.filter (fun e => decide (e.1 = a)) := by
        rw [hout a ha]
        simp [edgesOf, hp, hb]
      exact (List.mem_filter.mp hm).1

theorem returned_empty_step (env : Eopkg) (c : Nat) {s : State}
    (hs : s.status = Status.returned → s.stack = [] ∧ s.tasks = []) :
    (step env c s).status = Status.returned →
      (step env c s).stack = [] ∧ (step env c s).tasks = [] := by
  refine step_cases env c s
    (fun x => x.status = Status.returned → x.stack = [] ∧ x.tasks = [])
    ?_ ?_ ?_ ?_ ?_ ?_ ?_ ?_ ?_ ?_
  · intro _
    exact hs
  · intro _ hts hst _
    exact ⟨hst, hts⟩
  all_goals
    intros
    simp_all

theorem returned_empty_run (env : Eopkg) (cs : List Nat) {s : State}
    (hs : s.status = Status.returned → s.stack = [] ∧ s.tasks = []) :
    (run env cs s).status = Status.returned →
      (run env cs s).stack = [] ∧ (run env cs s).tasks = [] := by
  induction cs generalizing s with
  | nil => exact hs
  | cons c cs ih => exact ih (returned_empty_step env c hs)

/-- Failures allowed: when every successful lookup of a reachable name returns
a record of that name and all reachable names lie in a finite list, every
schedule of at least `fuel` steps has stopped: the call has returned with an
empty stack and no live goroutine, or it has crashed. -/
theorem dependencyGraph_stops (env : Eopkg) (root : Package) (univ : List String)
    (hfin : ∀ n, Reach env root n → n ∈ univ)
    (hname : ∀ n p, Reach env root n → n ≠ root.Name →
      (NewPackage env n).1 = some p → p.Name = n)
    (sched : List Nat)
    (hlen : fuel (maxDeps env root univ) univ (init root) ≤ sched.length) :
    ((root.DependencyGraph env sched).status = Status.returned ∧
      (root.DependencyGraph env sched).stack = [] ∧
      (root.DependencyGraph env sched).tasks = []) ∨
    (root.DependencyGraph env sched).status = Status.panicked := by
  unfold Package.DependencyGraph
  have hstop := run_stops hfin hname sched (inv_init env root) hlen
  have hre := returned_empty_run env sched (s := init root) (by simp [init])
  cases h : (run env sched (init root)).status with
  | running => exact absurd h hstop
  | returned => exact Or.inl ⟨rfl, hre h⟩
  | panicked => exact Or.inr rfl

end EopkgDeps

namespace EopkgDeps

/-! ## Scenarios -/

theorem newPackage_nil_of_err (env : Eopkg) (name : String) {e : Err}
    (h : (NewPackage env name).2 = some e) : (NewPackage env name).1 = none := by
  unfold NewPackage at h ⊢
  cases ho : env.Output name with
  | error e1 =>
    simp only
    split <;> rfl
  | ok o =>
    simp only [ho] at h ⊢
    cases hd : env.Decode o with
    | error e2 => rfl
    | ok pkg => simp [hd] at h

theorem cycle_explore (env : Eopkg) (A B compA compB : String) (hAB : A ≠ B)
    (hB : NewPackage env B = (some ⟨B, compB, ⟨[⟨A⟩]⟩⟩, none)) :
    explore env 7 [init ⟨A, compA, ⟨[⟨B⟩]⟩⟩]
      = [{ d := { nodes := [A, B], edges := [(A, B), (B, A)] }
           stack := []
           seen := [B, A]
           err := none
           tasks := []
           calls := [B]
           pops := 2
           status := Status.returned }] := by
  have hBA : B ≠ A := Ne.symm hAB
  simp [explore, succs, succsFrom, init, stepMain, stepTask, replaceAt, commit, Stack.Push,
    Stack.Pop, Stack.IsEmpty, DependencyGraph.AddNode, DependencyGraph.AddEdge, hB, hAB, hBA]

theorem dangling_explore (env : Eopkg) (A B compA : String) (e : Err) (hAB : A ≠ B)
    (hB : NewPackage env B = (none, some e)) :
    explore env 4 [init ⟨A, compA, ⟨[⟨B⟩]⟩⟩]
      = [{ d := { nodes := [A], edges := [(A, B)] }
           stack := []
           seen := [A]
           err := some e
           tasks := []
           calls := [B]
           pops := 1
           status := Status.returned }] := by
  have hBA : B ≠ A := Ne.symm hAB
  simp [explore, succs, succsFrom, init, stepMain, stepTask, replaceAt, commit, Stack.Push,
    Stack.Pop, Stack.IsEmpty, DependencyGraph.AddNode, DependencyGraph.AddEdge, hB, hAB, hBA]

theorem self_explore (env : Eopkg) (A compA : String) :
    explore env 3 [init ⟨A, compA, ⟨[⟨A⟩]⟩⟩]
      = [{ d := { nodes := [A], edges := [(A, A)] }
           stack := []
           seen := [A]
           err := none
           tasks := []
           calls := []
           pops := 1
           status := Status.returned }] := by
  simp [explore, succs, succsFrom, init, stepMain, stepTask, replaceAt, commit, Stack.Push,
    Stack.Pop, Stack.IsEmpty, DependencyGraph.AddNode, DependencyGraph.AddEdge]

theorem diamond_explore (env : Eopkg) (R B C D compR compB compC compD : String)
    (hRB : R ≠ B) (hRC : R ≠ C) (hRD : R ≠ D) (hBC : B ≠ C) (hBD : B ≠ D) (hCD : C ≠ D)
    (hB : NewPackage env B = (some ⟨B, compB, ⟨[⟨D⟩]⟩⟩, none))
    (hC : NewPackage env C = (some ⟨C, compC, ⟨[⟨D⟩]⟩⟩, none))
    (hD : NewPackage env D = (some ⟨D, compD, ⟨[]⟩⟩, none)) :
    ∀ s ∈ explore env 15 [init ⟨R, compR, ⟨[⟨B⟩, ⟨C⟩]⟩⟩], DiamondOk B C D s := by
  have hBR : B ≠ R := Ne.symm hRB
  have hCR : C ≠ R := Ne.symm hRC
  have hDR : D ≠ R := Ne.symm hRD
  have hCB : C ≠ B := Ne.symm hBC
  have hDB : D ≠ B := Ne.symm hBD
  have hDC : D ≠ C := Ne.symm hCD
  simp [DiamondOk, explore, succs, succsFrom, init, stepMain, stepTask, replaceAt, commit,
    Stack.Push, Stack.Pop, Stack.IsEmpty, DependencyGraph.AddNode, DependencyGraph.AddEdge,
    hB, hC, hD, hRB, hRC, hRD, hBC, hBD, hCD, hBR, hCR, hDR, hCB, hDB, hDC]

end EopkgDeps

namespace EopkgDeps

/-! ## The claims on concrete shapes of the dependency graph -/

/-- C4: for a root `A` whose only declared dependency is `B` (different from
`A`) and a metadata source whose lookup of `B` fails with error `e`, every
schedule of at least 4 steps ends with `DependencyGraph` returned: the graph
has the node `A` and the edge `A -> B` and nothing else (no node `B`, no edge
out of `B`), one lookup was made, and the returned error is `e`. -/
theorem dependencyGraph_dangling_edge (env : Eopkg) (A B compA : String) (e : Err)
    (hAB : A ≠ B) (hfail : (NewPackage env B).2 = some e)
    (sched : List Nat) (hlen : 4 ≤ sched.length) :
    Package.DependencyGraph env ⟨A, compA, ⟨[⟨B⟩]⟩⟩ sched
      = { d := { nodes := [A], edges := [(A, B)] }
          stack := []
          seen := [A]
          err := some e
          tasks := []
          calls := [B]
          pops := 1
          status := Status.returned } := by
  have hB : NewPackage env B = (none, some e) :=
    Prod.ext (newPackage_nil_of_err env B hfail) hfail
  have hx := dangling_explore env A B compA e hAB hB
  have hm := run_mem_explore_of_stopped env 4 (init ⟨A, compA, ⟨[⟨B⟩]⟩⟩)
    (by rw [hx]; simp) sched hlen
  rw [hx] at hm
  simpa [Package.DependencyGraph] using hm

/-- C7: for a root `A` declaring the single dependency `B`, where the lookup
of `B` returns a record named `B` declaring the single dependency `A`
(`A` different from `B`), every schedule of at least 7 steps ends with
`DependencyGraph` returned with a nil error, nodes exactly `A`, `B` and edges
exactly `A -> B`, `B -> A`. -/
theorem dependencyGraph_cycle (env : Eopkg) (A B compA compB : String) (hAB : A ≠ B)
    (hB : NewPackage env B = (some ⟨B, compB, ⟨[⟨A⟩]⟩⟩, none))
    (sched : List Nat) (hlen : 7 ≤ sched.length) :
    Package.DependencyGraph env ⟨A, compA, ⟨[⟨B⟩]⟩⟩ sched
      = { d := { nodes := [A, B], edges := [(A, B), (B, A)] }
          stack := []
          seen := [B, A]
          err := none
          tasks := []
          calls := [B]
          pops := 2
          status := Status.returned } := by
  have hx := cycle_explore env A B compA compB hAB hB
  have hm := run_mem_explore_of_stopped env 7 (init ⟨A, compA, ⟨[⟨B⟩]⟩⟩)
    (by rw [hx]; simp) sched hlen
  rw [hx] at hm
  simpa [Package.DependencyGraph] using hm

/-- C8: for a root `A` whose declared dependency list is exactly `[A]`, every
schedule of at least 3 steps ends with `DependencyGraph` returned after a
single pop and without any call of `NewPackage`; the graph has exactly the
node `A` and exactly the edge `A -> A`. -/
theorem dependencyGraph_self_dependency (env : Eopkg) (A compA : String)
    (sched : List Nat) (hlen : 3 ≤ sched.length) :
    Package.DependencyGraph env ⟨A, compA, ⟨[⟨A⟩]⟩⟩ sched
      = { d := { nodes := [A], edges := [(A, A)] }
          stack := []
          seen := [A]
          err := none
          tasks := []
          calls := []
          pops := 1
          status := Status.returned } := by
  have hx := self_explore env A compA
  have hm := run_mem_explore_of_stopped env 3 (init ⟨A, compA, ⟨[⟨A⟩]⟩⟩)
    (by rw [hx]; simp) sched hlen
  rw [hx] at hm
  simpa [Package.DependencyGraph] using hm

/-- C6: diamond.  For a root declaring `B` and `C`, where the lookups of `B`
and `C` return records named `B` and `C` that each declare the single
dependency `D`, and the lookup of `D` returns a record named `D` without
dependencies (all four names distinct), every schedule of at least 15 steps
ends with `DependencyGraph` returned with a nil error, exactly one call of
`NewPackage` for `D`, exactly one node `D`, and exactly the two edges
`B -> D` and `C -> D` pointing to `D`; and both orders of `B` and `C` on the
stack occur (`B` popped before `C` under one schedule, after it under
another). -/
theorem dependencyGraph_diamond (env : Eopkg) (R B C D compR compB compC compD : String)
    (hRB : R ≠ B) (hRC : R ≠ C) (hRD : R ≠ D) (hBC : B ≠ C) (hBD : B ≠ D) (hCD : C ≠ D)
    (hB : NewPackage env B = (some ⟨B, compB, ⟨[⟨D⟩]⟩⟩, none))
    (hC : NewPackage env C = (some ⟨C, compC, ⟨[⟨D⟩]⟩⟩, none))
    (hD : NewPackage env D = (some ⟨D, compD, ⟨[]⟩⟩, none)) :
    (∀ sched : List Nat, 15 ≤ sched.length →
      DiamondOk B C D (Package.DependencyGraph env ⟨R, compR, ⟨[⟨B⟩, ⟨C⟩]⟩⟩ sched)) ∧
    (Package.DependencyGraph env ⟨R, compR, ⟨[⟨B⟩, ⟨C⟩]⟩⟩
      [0, 0, 0, 0, 0, 0, 0, 0, 0, 0, 0, 0, 0, 0, 0]).d.nodes = [R, C, D, B] ∧
    (Package.DependencyGraph env ⟨R, compR, ⟨[⟨B⟩, ⟨C⟩]⟩⟩
      [0, 1, 1, 1, 0, 0, 0, 0, 0, 0, 0, 0, 0, 0, 0]).d.nodes = [R, B, D, C] := by
  have hBR : B ≠ R := Ne.symm hRB
  have hCR : C ≠ R := Ne.symm hRC
  have hDR : D ≠ R := Ne.symm hRD
  have hCB : C ≠ B := Ne.symm hBC
  have hDB : D ≠ B := Ne.symm hBD
  have hDC : D ≠ C := Ne.symm hCD
  refine ⟨?_, ?_, ?_⟩
  · intro sched hlen
    have hx := diamond_explore env R B C D compR compB compC compD hRB hRC hRD hBC hBD hCD
      hB hC hD
    exact hx _ (run_mem_explore_of_stopped env 15 (init ⟨R, compR, ⟨[⟨B⟩, ⟨C⟩]⟩⟩)
      (fun x hx2 => by rw [(hx x hx2).1]; simp) sched hlen)
  · simp [Package.DependencyGraph, run, step, init, stepMain, stepTask, replaceAt, commit,
      Stack.Push, Stack.Pop, Stack.IsEmpty, DependencyGraph.AddNode, DependencyGraph.AddEdge,
      hB, hC, hD, hRB, hRC, hRD, hBC, hBD, hCD, hBR, hCR, hDR, hCB, hDB, hDC]
  · simp [Package.DependencyGraph, run, step, init, stepMain, stepTask, replaceAt, commit,
      Stack.Push, Stack.Pop, Stack.IsEmpty, DependencyGraph.AddNode, DependencyGraph.AddEdge,
      hB, hC, hD, hRB, hRC, hRD, hBC, hBD, hCD, hBR, hCR, hDR, hCB, hDB, hDC]

end EopkgDeps

namespace EopkgDeps

/-! ## Instances -/

theorem diamond_reach (n : String) (h : Reach diamondEnv diamondRoot n) :
    n ∈ ["R", "B", "C", "D"] := by
  induction h with
  | root => decide
  | @dep m p c _ hp hc ih =>
    simp only [List.mem_cons, List.mem_singleton, List.not_mem_nil, or_false] at ih
    rcases ih with h | h | h | h
    · subst h
      have h1 : recOf diamondEnv diamondRoot "R" = some (mkPackage "R" ["B", "C"]) := by decide
      rw [h1] at hp
      cases hp
      have h2 : (mkPackage "R" ["B", "C"]).depNames = ["B", "C"] := by decide
      rw [h2] at hc
      simp only [List.mem_cons, List.mem_singleton, List.not_mem_nil, or_false] at hc ⊢
      rcases hc with h | h
      · exact Or.inr (Or.inl h)
      · exact Or.inr (Or.inr (Or.inl h))
    · subst h
      have h1 : recOf diamondEnv diamondRoot "B" = some (mkPackage "B" ["D"]) := by decide
      rw [h1] at hp
      cases hp
      have h2 : (mkPackage "B" ["D"]).depNames = ["D"] := by decide
      rw [h2] at hc
      simp only [List.mem_cons, List.mem_singleton, List.not_mem_nil, or_false] at hc ⊢
      exact Or.inr (Or.inr (Or.inr hc))
    · subst h
      have h1 : recOf diamondEnv diamondRoot "C" = some (mkPackage "C" ["D"]) := by decide
      rw [h1] at hp
      cases hp
      have h2 : (mkPackage "C" ["D"]).depNames = ["D"] := by decide
      rw [h2] at hc
      simp only [List.mem_cons, List.mem_singleton, List.not_mem_nil, or_false] at hc ⊢
      exact Or.inr (Or.inr (Or.inr hc))
    · subst h
      have h1 : recOf diamondEnv diamondRoot "D" = some (mkPackage "D" []) := by decide
      rw [h1] at hp
      cases hp
      have h2 : (mkPackage "D" []).depNames = [] := by decide
      rw [h2] at hc
      simp at hc

theorem diamond_lookups (n : String) (h : Reach diamondEnv diamondRoot n)
    (hne : n ≠ diamondRoot.Name) :
    ∃ p, NewPackage diamondEnv n = (some p, none) ∧ p.Name = n := by
  have hn := diamond_reach n h
  simp only [List.mem_cons, List.mem_singleton, List.not_mem_nil, or_false] at hn
  rcases hn with h1 | h1 | h1 | h1
  · subst h1
    exact absurd rfl hne
  · subst h1
    exact ⟨mkPackage "B" ["D"], by decide, by decide⟩
  · subst h1
    exact ⟨mkPackage "C" ["D"], by decide, by decide⟩
  · subst h1
    exact ⟨mkPackage "D" [], by decide, by decide⟩

/-- C3 at the diamond. -/
theorem dependencyGraph_nodes_edges_exact_witness :
    ∃ N, ∀ sched : List Nat, N ≤ sched.length →
      (diamondRoot.DependencyGraph diamondEnv sched).status = Status.returned ∧
      (diamondRoot.DependencyGraph diamondEnv sched).err = none ∧
      (diamondRoot.DependencyGraph diamondEnv sched).d.nodes.Nodup ∧
      (∀ n, n ∈ (diamondRoot.DependencyGraph diamondEnv sched).d.nodes
        ↔ Reach diamondEnv diamondRoot n) ∧
      (∀ e ∈ (diamondRoot.DependencyGraph diamondEnv sched).d.edges,
        e.1 ∈ (diamondRoot.DependencyGraph diamondEnv sched).d.nodes) ∧
      (∀ n p, Reach diamondEnv diamondRoot n → recOf diamondEnv diamondRoot n = some p →
        (diamondRoot.DependencyGraph diamondEnv sched).d.edges.filter
            (fun e => decide (e.1 = n))
          = p.depNames.map (fun c => (n, c))) ∧
      (∀ a b, (a, b) ∈ (diamondRoot.DependencyGraph diamondEnv sched).d.edges ↔
        (Reach diamondEnv diamondRoot a ∧
          ∃ p, recOf diamondEnv diamondRoot a = some p ∧ b ∈ p.depNames)) :=
  dependencyGraph_nodes_edges_exact diamondEnv diamondRoot ["R", "B", "C", "D"]
    diamond_reach diamond_lookups

/-- C4 at `A -> B` with `B` unknown to the source. -/
theorem dependencyGraph_dangling_edge_witness :
    "A" ≠ "B" ∧ (NewPackage (tableEnv []) "B").2 = some "Package B does not exists" ∧
    4 ≤ [0, 0, 0, 0].length ∧
    Package.DependencyGraph (tableEnv []) ⟨"A", "", ⟨[⟨"B"⟩]⟩⟩ [0, 0, 0, 0]
      = { d := { nodes := ["A"], edges := [("A", "B")] }
          stack := []
          seen := ["A"]
          err := some "Package B does not exists"
          tasks := []
          calls := ["B"]
          pops := 1
          status := Status.returned } :=
  ⟨by decide, by decide, by decide,
    dependencyGraph_dangling_edge (tableEnv []) "A" "B" "" "Package B does not exists"
      (by decide) (by decide) [0, 0, 0, 0] (by decide)⟩

/-- C7 at `A -> B -> A`. -/
theorem dependencyGraph_cycle_witness :
    "A" ≠ "B" ∧
    NewPackage (tableEnv [("B", ["A"])]) "B" = (some ⟨"B", "", ⟨[⟨"A"⟩]⟩⟩, none) ∧
    7 ≤ [0, 0, 0, 0, 0, 0, 0].length ∧
    Package.DependencyGraph (tableEnv [("B", ["A"])]) ⟨"A", "", ⟨[⟨"B"⟩]⟩⟩
        [0, 0, 0, 0, 0, 0, 0]
      = { d := { nodes := ["A", "B"], edges := [("A", "B"), ("B", "A")] }
          stack := []
          seen := ["B", "A"]
          err := none
          tasks := []
          calls := ["B"]
          pops := 2
          status := Status.returned } :=
  ⟨by decide, by decide, by decide,
    dependencyGraph_cycle (tableEnv [("B", ["A"])]) "A" "B" "" "" (by decide) (by decide)
      [0, 0, 0, 0, 0, 0, 0] (by decide)⟩

/-- C8 at `A -> A`. -/
theorem dependencyGraph_self_dependency_witness :
    3 ≤ [0, 0, 0].length ∧
    Package.DependencyGraph (tableEnv []) ⟨"A", "", ⟨[⟨"A"⟩]⟩⟩ [0, 0, 0]
      = { d := { nodes := ["A"], edges := [("A", "A")] }
          stack := []
          seen := ["A"]
          err := none
          tasks := []
          calls := []
          pops := 1
          status := Status.returned } :=
  ⟨by decide, dependencyGraph_self_dependency (tableEnv []) "A" "" [0, 0, 0] (by decide)⟩

/-- C6 at the diamond `R -> B, C -> D`. -/
theorem dependencyGraph_diamond_witness :
    (∀ sched : List Nat, 15 ≤ sched.length →
      DiamondOk "B" "C" "D" (Package.DependencyGraph diamondEnv ⟨"R", "", ⟨[⟨"B"⟩, ⟨"C"⟩]⟩⟩ sched)) ∧
    (Package.DependencyGraph diamondEnv ⟨"R", "", ⟨[⟨"B"⟩, ⟨"C"⟩]⟩⟩
      [0, 0, 0, 0, 0, 0, 0, 0, 0, 0, 0, 0, 0, 0, 0]).d.nodes = ["R", "C", "D", "B"] ∧
    (Package.DependencyGraph diamondEnv ⟨"R", "", ⟨[⟨"B"⟩, ⟨"C"⟩]⟩⟩
      [0, 1, 1, 1, 0, 0, 0, 0, 0, 0, 0, 0, 0, 0, 0]).d.nodes = ["R", "B", "D", "C"] :=
  dependencyGraph_diamond diamondEnv "R" "B" "C" "D" "" "" "" ""
    (by decide) (by decide) (by decide) (by decide) (by decide) (by decide)
    (by decide) (by decide) (by decide)

end EopkgDeps

namespace EopkgDeps

/-! ## Where the code departs from the claims -/

/-- C1: a failed lookup does not make `DependencyGraph` return its error.
With `F` unknown and `S` known to the source, the lookup of `F` fails; under
the schedule in which the goroutine of `F` finishes before the goroutine of
`S` starts, the assignment `childPackage, err = NewPackage("S")` resets the
shared `err` to nil and the call returns a nil error.  The same happens when
the successful lookup runs in a later iteration (second part: `F` is looked up
while `B` is expanded, `E` while `C` is expanded afterwards). -/
theorem dependencyGraph_drops_lookup_error :
    NewPackage oneKnownEnv "F" = (none, some "Package F does not exists") ∧
    Package.DependencyGraph oneKnownEnv mixedRoot [0, 0, 0, 0, 0, 0, 0, 0]
      = { d := { nodes := ["A", "S"], edges := [("A", "F"), ("A", "S")] }
          stack := []
          seen := ["S", "A"]
          err := none
          tasks := []
          calls := ["F", "S"]
          pops := 2
          status := Status.returned } ∧
    NewPackage (tableEnv [("B", ["F"]), ("C", ["E"]), ("E", [])]) "F"
      = (none, some "Package F does not exists") ∧
    Package.DependencyGraph (tableEnv [("B", ["F"]), ("C", ["E"]), ("E", [])])
        (mkPackage "A" ["B", "C"]) [0, 1, 1, 1, 0, 0, 0, 0, 0, 0, 0, 0, 0, 0, 0, 0]
      = { d := { nodes := ["A", "B", "C", "E"]
                 edges := [("A", "B"), ("A", "C"), ("B", "F"), ("C", "E")] }
          stack := []
          seen := ["E", "C", "B", "A"]
          err := none
          tasks := []
          calls := ["C", "B", "F", "E"]
          pops := 4
          status := Status.returned } := by
  decide

theorem duplicate_explore (env : Eopkg) (A B compA compB : String) (hAB : A ≠ B)
    (hB : NewPackage env B = (some ⟨B, compB, ⟨[]⟩⟩, none)) :
    ∀ s ∈ explore env 10 [init ⟨A, compA, ⟨[⟨B⟩, ⟨B⟩]⟩⟩],
      s.status = Status.returned ∧ s.calls = [B, B] ∧ s.d.nodes = [A, B] := by
  have hBA : B ≠ A := Ne.symm hAB
  simp [explore, succs, succsFrom, init, stepMain, stepTask, replaceAt, commit,
    Stack.Push, Stack.Pop, Stack.IsEmpty, DependencyGraph.AddNode, DependencyGraph.AddEdge,
    hB, hAB, hBA]

/-- C2: `NewPackage` is called twice for one name.  For a root `A` that
declares `B` twice, where the lookup of `B` returns a record named `B`
without dependencies, every schedule of at least 10 steps ends with
`DependencyGraph` returned after two calls of `NewPackage` for `B`: the seen
map is written only when a record is popped, so both goroutines of the
iteration find `B` unseen. -/
theorem dependencyGraph_repeats_lookup (env : Eopkg) (A B compA compB : String)
    (hAB : A ≠ B) (hB : NewPackage env B = (some ⟨B, compB, ⟨[]⟩⟩, none))
    (sched : List Nat) (hlen : 10 ≤ sched.length) :
    (Package.DependencyGraph env ⟨A, compA, ⟨[⟨B⟩, ⟨B⟩]⟩⟩ sched).status = Status.returned ∧
    (Package.DependencyGraph env ⟨A, compA, ⟨[⟨B⟩, ⟨B⟩]⟩⟩ sched).calls = [B, B] ∧
    (Package.DependencyGraph env ⟨A, compA, ⟨[⟨B⟩, ⟨B⟩]⟩⟩ sched).d.nodes = [A, B] := by
  have hx := duplicate_explore env A B compA compB hAB hB
  exact hx _ (run_mem_explore_of_stopped env 10 (init ⟨A, compA, ⟨[⟨B⟩, ⟨B⟩]⟩⟩)
    (fun x hx2 => by rw [(hx x hx2).1]; simp) sched hlen)

/-- C2 at `A -> B, B`. -/
theorem dependencyGraph_repeats_lookup_witness :
    "A" ≠ "B" ∧ NewPackage (tableEnv [("B", [])]) "B" = (some ⟨"B", "", ⟨[]⟩⟩, none) ∧
    10 ≤ [0, 1, 0, 1, 0, 1, 0, 0, 0, 0].length ∧
    (Package.DependencyGraph (tableEnv [("B", [])]) ⟨"A", "", ⟨[⟨"B"⟩, ⟨"B"⟩]⟩⟩
      [0, 1, 0, 1, 0, 1, 0, 0, 0, 0]).status = Status.returned ∧
    (Package.DependencyGraph (tableEnv [("B", [])]) ⟨"A", "", ⟨[⟨"B"⟩, ⟨"B"⟩]⟩⟩
      [0, 1, 0, 1, 0, 1, 0, 0, 0, 0]).calls = ["B", "B"] ∧
    (Package.DependencyGraph (tableEnv [("B", [])]) ⟨"A", "", ⟨[⟨"B"⟩, ⟨"B"⟩]⟩⟩
      [0, 1, 0, 1, 0, 1, 0, 0, 0, 0]).d.nodes = ["A", "B"] :=
  ⟨by decide, by decide, by decide,
    dependencyGraph_repeats_lookup (tableEnv [("B", [])]) "A" "B" "" "" (by decide)
      (by decide) [0, 1, 0, 1, 0, 1, 0, 0, 0, 0] (by decide)⟩

/-- A name that several packages declare is looked up again when its record is
still on the stack: `A` declares `B` and `D`, `B` declares `D`; when `B` lands
above `D`, the pop of `B` finds `D` unseen and `NewPackage` is called for `D`
a second time. -/
theorem dependencyGraph_repeats_pending_lookup :
    (Package.DependencyGraph (tableEnv [("B", ["D"]), ("D", [])]) (mkPackage "A" ["B", "D"])
      [0, 1, 1, 1, 0, 0, 0, 0, 0, 0, 0, 0, 0, 0, 0, 0, 0, 0]).status = Status.returned ∧
    (Package.DependencyGraph (tableEnv [("B", ["D"]), ("D", [])]) (mkPackage "A" ["B", "D"])
      [0, 1, 1, 1, 0, 0, 0, 0, 0, 0, 0, 0, 0, 0, 0, 0, 0, 0]).calls = ["D", "B", "D"] := by
  decide

/-- C5: a failed lookup can stop the expansion of a sibling.  With `F` unknown
and `S` known, under the schedule in which the goroutine of `S` assigns
`err = nil`, then the goroutine of `F` assigns its error, then the goroutine
of `S` tests `err != nil`, the goroutine of `S` returns without pushing: `S`,
whose lookup succeeded, is never a node. -/
theorem dependencyGraph_sibling_dropped :
    NewPackage oneKnownEnv "S" = (some (mkPackage "S" []), none) ∧
    Package.DependencyGraph oneKnownEnv mixedRoot [0, 1, 0, 0, 0, 0]
      = { d := { nodes := ["A"], edges := [("A", "F"), ("A", "S")] }
          stack := []
          seen := ["A"]
          err := some "Package F does not exists"
          tasks := []
          calls := ["S", "F"]
          pops := 1
          status := Status.returned } := by
  decide

/-- C9: the shared `err` is not first-write-wins.  With `F1` and `F2` both
unknown, after the goroutines of `F1` and `F2` have assigned in this order the
variable holds the error of `F2`, and that error is returned: the last write
wins. -/
theorem dependencyGraph_error_last_write_wins :
    (Package.DependencyGraph (tableEnv []) (mkPackage "A" ["F1", "F2"]) [0, 0]).err
      = some "Package F1 does not exists" ∧
    (Package.DependencyGraph (tableEnv []) (mkPackage "A" ["F1", "F2"]) [0, 0, 1]).err
      = some "Package F2 does not exists" ∧
    Package.DependencyGraph (tableEnv []) (mkPackage "A" ["F1", "F2"]) [0, 0, 1, 0, 0, 0]
      = { d := { nodes := ["A"], edges := [("A", "F1"), ("A", "F2")] }
          stack := []
          seen := ["A"]
          err := some "Package F2 does not exists"
          tasks := []
          calls := ["F1", "F2"]
          pops := 1
          status := Status.returned } := by
  decide

/-- C10: the drain loop can end in a crash with a record left on the stack.
With `F` unknown and `S` known: the goroutine of `F` fails and assigns its
error, the goroutine of `S` assigns nil and pushes its record, then the
goroutine of `F` finds `err` nil and dereferences its nil `childPackage`.
Whatever the schedule does afterwards, the call has not returned and the
stack holds the record of `S`. -/
theorem dependencyGraph_panics (rest : List Nat) :
    Package.DependencyGraph oneKnownEnv mixedRoot ([0, 0, 1, 1, 1, 0, 0] ++ rest)
      = { d := { nodes := ["A"], edges := [("A", "F"), ("A", "S")] }
          stack := [mkPackage "S" []]
          seen := ["A"]
          err := none
          tasks := [Task.pushing none]
          calls := ["F", "S"]
          pops := 1
          status := Status.panicked } := by
  have h : run oneKnownEnv [0, 0, 1, 1, 1, 0, 0] (init mixedRoot)
      = { d := { nodes := ["A"], edges := [("A", "F"), ("A", "S")] }
          stack := [mkPackage "S" []]
          seen := ["A"]
          err := none
          tasks := [Task.pushing none]
          calls := ["F", "S"]
          pops := 1
          status := Status.panicked } := by
    decide
  unfold Package.DependencyGraph
  rw [run_append, h]
  exact run_of_not_running _ _ _ (by decide)

end EopkgDeps

namespace EopkgDeps

/-! ## What holds of every run, and of runs with uninterrupted goroutines -/

theorem err_last_call_step (env : Eopkg) (c : Nat) {s : State}
    (hs : s.err = (s.calls.getLast?).bind (fun n => (NewPackage env n).2)) :
    (step env c s).err
      = ((step env c s).calls.getLast?).bind (fun n => (NewPackage env n).2) := by
  refine step_cases env c s
    (fun x => x.err = (x.calls.getLast?).bind (fun n => (NewPackage env n).2))
    ?_ ?_ ?_ ?_ ?_ ?_ ?_ ?_ ?_ ?_
  · intro _
    exact hs
  · intro _ _ _
    exact hs
  · intro _ _ _ _ _ _
    exact hs
  · intro _ _ _ _ _ _
    exact hs
  · intro _ _ _ _ _ _
    exact hs
  · intro i childDep _ _ _ _
    simp
  · intro _ _ _ _ _ _
    exact hs
  · intro _ _ _ _ _ _
    exact hs
  · intro _ _ _ _
    exact hs
  · intro _ _ _ _ _
    exact hs

/-- Under every schedule and at every moment, the shared `err` holds the error
result of the latest call of `NewPackage` (nil when that call succeeded, nil
before the first call): the last write wins. -/
theorem dependencyGraph_err_last_call (env : Eopkg) (root : Package) (sched : List Nat) :
    (root.DependencyGraph env sched).err
      = ((root.DependencyGraph env sched).calls.getLast?).bind
          (fun n => (NewPackage env n).2) := by
  unfold Package.DependencyGraph
  have h0 : (init root).err
      = ((init root).calls.getLast?).bind (fun n => (NewPackage env n).2) := by
    simp [init]
  generalize init root = s at h0
  induction sched generalizing s with
  | nil => exact h0
  | cons c cs ih => exact ih _ (err_last_call_step env c h0)

theorem newPackage_shape (env : Eopkg) (name : String) :
    (∃ e, NewPackage env name = (none, some e)) ∨ (∃ p, NewPackage env name = (some p, none)) := by
  unfold NewPackage
  cases env.Output name with
  | error e =>
    simp only
    split
    · exact Or.inl ⟨_, rfl⟩
    · exact Or.inl ⟨_, rfl⟩
  | ok o =>
    simp only
    cases env.Decode o with
    | error e => exact Or.inl ⟨_, rfl⟩
    | ok pkg => exact Or.inr ⟨_, rfl⟩

theorem uinv_init (env : Eopkg) (root : Package) : UInv env root (init root) where
  not_panicked := by simp [init]
  returned_empty := by simp [init]
  tasks_ok := by simp [init]
  nodes_seen := by simp [init]
  seen_nodup := by simp [init]
  edges_eq := by simp [init, edgesFrom]
  closed := by simp [init]

theorem all_start_of_atomic {c : Nat} {s : State} {childDep : Dependency}
    (hc : atomicChoice c s = true)
    (hget : s.tasks[c % s.tasks.length]? = some (Task.start childDep)) :
    ∀ t ∈ s.tasks, t.started = false := by
  unfold atomicChoice at hc
  rw [hget] at hc
  simp only [Task.started, Bool.or_false, Bool.not_eq_true', List.any_eq_false] at hc
  intro t ht
  simpa using hc t ht

theorem taskOk_of_not_started {err : Option Err} {t : Task} (h : t.started = false) :
    TaskOk err t := by
  cases t with
  | start _ => trivial
  | looked _ => simp [Task.started] at h
  | pushing _ => simp [Task.started] at h

theorem uinv_step {env : Eopkg} {root : Package}
    (hname : ∀ n p, Reach env root n → n ≠ root.Name →
      (NewPackage env n).1 = some p → p.Name = n)
    (c : Nat) {s : State} (hi : Inv env root s) (hs : UInv env root s)
    (hc : atomicChoice c s = true) : UInv env root (step env c s) := by
  refine step_cases env c s (UInv env root) ?_ ?_ ?_ ?_ ?_ ?_ ?_ ?_ ?_ ?_
  · intro _
    exact hs
  · intro _ hts hst
    exact ⟨by simp, fun _ => ⟨hst, hts⟩, hs.tasks_ok, hs.nodes_seen, hs.seen_nodup,
      hs.edges_eq, hs.closed⟩
  · intro cur rest hrun hts hst hseen
    refine ⟨by simp [hrun], by simp [hrun], ?_, hs.nodes_seen, hs.seen_nodup,
      hs.edges_eq, ?_⟩
    · intro t ht
      obtain ⟨childDep, _, rfl⟩ := List.mem_map.mp ht
      trivial
    · intro n hn p hp c hc
      rcases hs.closed n hn p hp c hc with h | ⟨q, hq, hqc⟩ | ⟨t, ht, _⟩ | h
      · exact Or.inl h
      · rw [hst] at hq
        rcases List.mem_cons.mp hq with h | h
        · left
          rw [← hqc, h]
          exact hseen
        · exact Or.inr (Or.inl ⟨q, h, hqc⟩)
      · rw [hts] at ht
        simp at ht
      · exact Or.inr (Or.inr (Or.inr h))
  · intro cur rest hrun hts hst hseen
    have hcur : Good env root cur := hi.stack_good cur (by rw [hst]; simp)
    have hnode : cur.Name ∉ s.d.nodes := by
      rw [hs.nodes_seen]
      simpa using hseen
    refine ⟨by simp [hrun], by simp [hrun], ?_, ?_, ?_, ?_, ?_⟩
    · intro t ht
      obtain ⟨childDep, _, rfl⟩ := List.mem_map.mp ht
      trivial
    · simp [commit_eq s.d cur hnode, hs.nodes_seen]
    · exact List.nodup_cons.mpr ⟨hseen, hs.seen_nodup⟩
    · simp only [commit_eq s.d cur hnode, edgesFrom_append, hs.edges_eq]
      simp [edgesFrom, edgesOf, hcur.2]
    · intro n hn p hp c hc
      rcases List.mem_cons.mp hn with h | h
      · subst h
        rw [hcur.2] at hp
        simp only [Option.some.injEq] at hp
        subst hp
        obtain ⟨childDep, hd, hdc⟩ := List.mem_map.mp hc
        exact Or.inr (Or.inr (Or.inl ⟨Task.start childDep, List.mem_map_of_mem _ hd, hdc⟩))
      · rcases hs.closed n h p hp c hc with h1 | ⟨q, hq, hqc⟩ | ⟨t, ht, _⟩ | h1
        · exact Or.inl (List.mem_cons_of_mem _ h1)
        · rw [hst] at hq
          rcases List.mem_cons.mp hq with h2 | h2
          · left
            rw [← hqc, h2]
            exact List.mem_cons_self _ _
          · exact Or.inr (Or.inl ⟨q, h2, hqc⟩)
        · rw [hts] at ht
          simp at ht
        · exact Or.inr (Or.inr (Or.inr h1))
  · intro i childDep _ hrun hget hseen
    refine ⟨by simp [hrun], by simp [hrun], ?_, hs.nodes_seen, hs.seen_nodup,
      hs.edges_eq, ?_⟩
    · intro t ht
      rcases mem_replaceAt ht with h | h
      · exact hs.tasks_ok t h
      · simp at h
    · intro n hn p hp c hc
      rcases hs.closed n hn p hp c hc with h | h | ⟨t, ht, htc⟩ | h
      · exact Or.inl h
      · exact Or.inr (Or.inl h)
      · rcases mem_replaceAt_of_mem (r := none) hget ht with h | h
        · exact Or.inr (Or.inr (Or.inl ⟨t, h, htc⟩))
        · subst h
          left
          simp only [TaskFor] at htc
          rw [← htc]
          exact hseen
      · exact Or.inr (Or.inr (Or.inr h))
  · intro i childDep hic hrun hget hseen
    have hroot : root.Name ∈ s.seen := by
      rcases hi.root_seen with h | ⟨_, h, _⟩
      · exact h
      · rw [h] at hget
        simp at hget
    have hreach : Reach env root childDep.Name :=
      hi.tasks_good _ (mem_of_get?_eq hget)
    have hne : childDep.Name ≠ root.Name := by
      intro h
      rw [h] at hseen
      exact hseen hroot
    have hall := all_start_of_atomic hc (by rw [← hic]; exact hget)
    refine ⟨by simp [hrun], by simp [hrun], ?_, hs.nodes_seen, hs.seen_nodup,
      hs.edges_eq, ?_⟩
    · intro t ht
      rcases mem_replaceAt ht with h | h
      · exact taskOk_of_not_started (hall t h)
      · simp only [Option.some.injEq] at h
        subst h
        rcases newPackage_shape env childDep.Name with ⟨e, he⟩ | ⟨p, hp⟩
        · simp [he, TaskOk]
        · simp [hp, TaskOk]
    · intro n hn p hp c hc
      rcases hs.closed n hn p hp c hc with h | h | ⟨t, ht, htc⟩ | h
      · exact Or.inl h
      · exact Or.inr (Or.inl h)
      · rcases mem_replaceAt_of_mem
          (r := some (Task.looked (NewPackage env childDep.Name).1)) hget ht with h | h
        · exact Or.inr (Or.inr (Or.inl ⟨t, h, htc⟩))
        · subst h
          simp only [TaskFor] at htc
          cases hp0 : (NewPackage env childDep.Name).1 with
          | none =>
            right; right; right
            rw [← htc]
            exact hp0
          | some p0 =>
            have hp0n : p0.Name = childDep.Name := hname _ p0 hreach hne hp0
            refine Or.inr (Or.inr (Or.inl ⟨_, mem_replaceAt_some hget, ?_⟩))
            simp only [hp0, TaskFor]
            rw [hp0n, htc]
      · exact Or.inr (Or.inr (Or.inr h))
  · intro i childPackage _ hrun hget herr
    have hok := hs.tasks_ok _ (mem_of_get?_eq hget)
    refine ⟨by simp [hrun], by simp [hrun], ?_, hs.nodes_seen, hs.seen_nodup,
      hs.edges_eq, ?_⟩
    · intro t ht
      rcases mem_replaceAt ht with h | h
      · exact hs.tasks_ok t h
      · simp at h
    · intro n hn p hp c hc
      rcases hs.closed n hn p hp c hc with h | h | ⟨t, ht, htc⟩ | h
      · exact Or.inl h
      · exact Or.inr (Or.inl h)
      · rcases mem_replaceAt_of_mem (r := none) hget ht with h | h
        · exact Or.inr (Or.inr (Or.inl ⟨t, h, htc⟩))
        · subst h
          cases childPackage with
          | none => simp [TaskFor] at htc
          | some q =>
            simp only [TaskOk] at hok
            rw [hok] at herr
            simp at herr
      · exact Or.inr (Or.inr (Or.inr h))
  · intro i childPackage _ hrun hget herr
    have hok := hs.tasks_ok _ (mem_of_get?_eq hget)
    have hne : childPackage ≠ none := by
      intro h
      rw [h] at hok
      simp only [TaskOk] at hok
      rw [herr] at hok
      simp at hok
    refine ⟨by simp [hrun], by simp [hrun], ?_, hs.nodes_seen, hs.seen_nodup,
      hs.edges_eq, ?_⟩
    · intro t ht
      rcases mem_replaceAt ht with h | h
      · exact hs.tasks_ok t h
      · simp only [Option.some.injEq] at h
        subst h
        cases childPackage with
        | none => exact absurd rfl hne
        | some q => trivial
    · intro n hn p hp c hc
      rcases hs.closed n hn p hp c hc with h | h | ⟨t, ht, htc⟩ | h
      · exact Or.inl h
      · exact Or.inr (Or.inl h)
      · rcases mem_replaceAt_of_mem (r := some (Task.pushing childPackage)) hget ht with h | h
        · exact Or.inr (Or.inr (Or.inl ⟨t, h, htc⟩))
        · subst h
          refine Or.inr (Or.inr (Or.inl ⟨_, mem_replaceAt_some hget, ?_⟩))
          cases childPackage with
          | none => simp [TaskFor] at htc
          | some q => exact htc
      · exact Or.inr (Or.inr (Or.inr h))
  · intro i _ _ hget
    exact absurd (hs.tasks_ok _ (mem_of_get?_eq hget)) (by simp [TaskOk])
  · intro i p _ hrun hget
    refine ⟨by simp [hrun], by simp [hrun], ?_, hs.nodes_seen, hs.seen_nodup,
      hs.edges_eq, ?_⟩
    · intro t ht
      rcases mem_replaceAt ht with h | h
      · exact hs.tasks_ok t h
      · simp at h
    · intro n hn q hq c hc
      rcases hs.closed n hn q hq c hc with h | ⟨r, hr, hrc⟩ | ⟨t, ht, htc⟩ | h
      · exact Or.inl h
      · exact Or.inr (Or.inl ⟨r, List.mem_cons_of_mem _ hr, hrc⟩)
      · rcases mem_replaceAt_of_mem (r := none) hget ht with h | h
        · exact Or.inr (Or.inr (Or.inl ⟨t, h, htc⟩))
        · subst h
          exact Or.inr (Or.inl ⟨p, List.mem_cons_self _ _, htc⟩)
      · exact Or.inr (Or.inr (Or.inr h))

theorem uinv_run {env : Eopkg} {root : Package}
    (hname : ∀ n p, Reach env root n → n ≠ root.Name →
      (NewPackage env n).1 = some p → p.Name = n)
    (cs : List Nat) {s : State} (hi : Inv env root s) (hs : UInv env root s)
    (hat : atomicRun env cs s = true) : UInv env root (run env cs s) := by
  induction cs generalizing s with
  | nil => exact hs
  | cons c cs ih =>
    simp only [atomicRun, Bool.and_eq_true] at hat
    exact ih (inv_step hname c hi) (uinv_step hname c hi hs hat.1) hat.2

theorem reachOk_seen_of_closed {env : Eopkg} {root : Package} {s : State}
    (hroot : root.Name ∈ s.seen)
    (hcl : ∀ n ∈ s.seen, ∀ p, recOf env root n = some p → ∀ c ∈ p.depNames,
      c ∈ s.seen ∨ (NewPackage env c).1 = none)
    {n : String} (hn : ReachOk env root n) : n ∈ s.seen := by
  induction hn with
  | root => exact hroot
  | dep _ hp hc hok ih =>
    rcases hcl _ ih _ hp _ hc with h | h
    · exact h
    · exact absurd h hok

/-- Failures allowed.  When every successful lookup of a reachable name
returns a record of that name and all reachable names lie in a finite list,
every schedule of at least `fuel` steps that lets each goroutine run lines
94-98 uninterrupted ends with `DependencyGraph` returned (no crash) with an
empty stack; every name reachable from the root along successful lookups is a
node, every node is reachable and occurs once, and the edges out of each node
are the declared dependency list of its record. -/
theorem dependencyGraph_uninterrupted (env : Eopkg) (root : Package) (univ : List String)
    (hfin : ∀ n, Reach env root n → n ∈ univ)
    (hname : ∀ n p, Reach env root n → n ≠ root.Name →
      (NewPackage env n).1 = some p → p.Name = n)
    (sched : List Nat) (hat : atomicRun env sched (init root) = true)
    (hlen : fuel (maxDeps env root univ) univ (init root) ≤ sched.length) :
    (root.DependencyGraph env sched).status = Status.returned ∧
    (root.DependencyGraph env sched).stack = [] ∧
    (root.DependencyGraph env sched).d.nodes.Nodup ∧
    (∀ n ∈ (root.DependencyGraph env sched).d.nodes, Reach env root n) ∧
    (∀ n, ReachOk env root n → n ∈ (root.DependencyGraph env sched).d.nodes) ∧
    (∀ n p, n ∈ (root.DependencyGraph env sched).d.nodes → recOf env root n = some p →
      (root.DependencyGraph env sched).d.edges.filter (fun e => decide (e.1 = n))
        = p.depNames.map (fun c => (n, c))) := by
  unfold Package.DependencyGraph
  have hi : Inv env root (run env sched (init root)) :=
    inv_run hname sched (inv_init env root)
  have hu : UInv env root (run env sched (init root)) :=
    uinv_run hname sched (inv_init env root) (uinv_init env root) hat
  have hstop : (run env sched (init root)).status ≠ Status.running :=
    run_stops hfin hname sched (inv_init env root) hlen
  generalize run env sched (init root) = s at hi hu hstop
  have hret : s.status = Status.returned := by
    have := hu.not_panicked
    cases h : s.status <;> simp_all
  obtain ⟨hstack, htasks⟩ := hu.returned_empty hret
  have hroot : root.Name ∈ s.seen := by
    rcases hi.root_seen with h | ⟨h, _, _⟩
    · exact h
    · rw [hstack] at h
      simp at h
  have hcl : ∀ n ∈ s.seen, ∀ p, recOf env root n = some p → ∀ c ∈ p.depNames,
      c ∈ s.seen ∨ (NewPackage env c).1 = none := by
    intro n hn p hp c hc
    rcases hu.closed n hn p hp c hc with h | ⟨q, hq, _⟩ | ⟨t, ht, _⟩ | h
    · exact Or.inl h
    · rw [hstack] at hq
      simp at hq
    · rw [htasks] at ht
      simp at ht
    · exact Or.inr h
  have hnd : s.d.nodes.Nodup := by
    rw [hu.nodes_seen]
    exact List.nodup_reverse.mpr hu.seen_nodup
  refine ⟨hret, hstack, hnd, ?_, ?_, ?_⟩
  · intro n hn
    rw [hu.nodes_seen, List.mem_reverse] at hn
    exact hi.seen_reach n hn
  · intro n hn
    rw [hu.nodes_seen, List.mem_reverse]
    exact reachOk_seen_of_closed hroot hcl hn
  · intro n p hn hp
    rw [hu.edges_eq, filter_edgesFrom env root hnd hn]
    simp [edgesOf, hp]

theorem tableEnv_name (table : List (String × List String)) (n : String) (p : Package)
    (h : (NewPackage (tableEnv table) n).1 = some p) : p.Name = n := by
  unfold NewPackage tableEnv at h
  simp only at h
  split at h
  · split at h <;> simp at h
  · rename_i o ho
    split at ho
    · simp only [Except.ok.injEq] at ho
      subst ho
      split at h
      · simp at h
      · rename_i pkg hd
        split at hd
        · simp only [Except.ok.injEq] at hd
          simp only [Option.some.injEq] at h
          rw [← h, ← hd]
          rfl
        · simp at hd
    · simp at ho

theorem mixed_reach (n : String) (h : Reach oneKnownEnv mixedRoot n) :
    n ∈ ["A", "F", "S"] := by
  induction h with
  | root => decide
  | @dep m p c _ hp hc ih =>
    simp only [List.mem_cons, List.mem_singleton, List.not_mem_nil, or_false] at ih
    rcases ih with h | h | h
    · subst h
      have h1 : recOf oneKnownEnv mixedRoot "A" = some (mkPackage "A" ["F", "S"]) := by decide
      rw [h1] at hp
      cases hp
      have h2 : (mkPackage "A" ["F", "S"]).depNames = ["F", "S"] := by decide
      rw [h2] at hc
      simp only [List.mem_cons, List.mem_singleton, List.not_mem_nil, or_false] at hc ⊢
      exact Or.inr hc
    · subst h
      have h1 : recOf oneKnownEnv mixedRoot "F" = none := by decide
      rw [h1] at hp
      cases hp
    · subst h
      have h1 : recOf oneKnownEnv mixedRoot "S" = some (mkPackage "S" []) := by decide
      rw [h1] at hp
      cases hp
      have h2 : (mkPackage "S" []).depNames = [] := by decide
      rw [h2] at hc
      simp at hc

/-- The theorem `dependencyGraph_uninterrupted` at the root `A` declaring the
unknown `F` and the known `S`, under the schedule that always lets the first
live goroutine act. -/
theorem dependencyGraph_uninterrupted_instance :
    (mixedRoot.DependencyGraph oneKnownEnv (List.replicate 50 0)).status = Status.returned ∧
    (mixedRoot.DependencyGraph oneKnownEnv (List.replicate 50 0)).stack = [] ∧
    (mixedRoot.DependencyGraph oneKnownEnv (List.replicate 50 0)).d.nodes.Nodup ∧
    (∀ n ∈ (mixedRoot.DependencyGraph oneKnownEnv (List.replicate 50 0)).d.nodes,
      Reach oneKnownEnv mixedRoot n) ∧
    (∀ n, ReachOk oneKnownEnv mixedRoot n →
      n ∈ (mixedRoot.DependencyGraph oneKnownEnv (List.replicate 50 0)).d.nodes) ∧
    (∀ n p, n ∈ (mixedRoot.DependencyGraph oneKnownEnv (List.replicate 50 0)).d.nodes →
      recOf oneKnownEnv mixedRoot n = some p →
      (mixedRoot.DependencyGraph oneKnownEnv (List.replicate 50 0)).d.edges.filter
          (fun e => decide (e.1 = n))
        = p.depNames.map (fun c => (n, c))) :=
  dependencyGraph_uninterrupted oneKnownEnv mixedRoot ["A", "F", "S"] mixed_reach
    (fun n p _ _ h => tableEnv_name _ n p h) (List.replicate 50 0) (by decide) (by decide)

theorem looping_step (c : Nat) (s : State) (h : Looping s) :
    Looping (step renamingEnv c s) := by
  obtain ⟨d, stack, seen, err, tasks, calls, pops, status⟩ := s
  obtain ⟨hrun, hB, herr, hshape⟩ := h
  simp only at hrun hB herr hshape
  subst hrun herr
  have hnp : NewPackage renamingEnv "B" = (some (mkPackage "X" ["B"]), none) := by decide
  rcases hshape with ⟨h1, h2⟩ | ⟨h1, h2⟩ | ⟨h1, h2⟩ | ⟨h1, h2⟩ | ⟨h1, h2⟩
  · subst h1 h2
    by_cases hA : "A" ∈ seen
    · simp [Looping, step, stepMain, Stack.IsEmpty, Stack.Pop, mkPackage, hA, hB]
    · simp [Looping, step, stepMain, Stack.IsEmpty, Stack.Pop, mkPackage, hA, hB]
  · subst h1 h2
    by_cases hX : "X" ∈ seen
    · simp [Looping, step, stepMain, Stack.IsEmpty, Stack.Pop, mkPackage, hX, hB]
    · simp [Looping, step, stepMain, Stack.IsEmpty, Stack.Pop, mkPackage, hX, hB]
  · subst h1 h2
    simp [Looping, step, stepTask, replaceAt, hB, hnp, Nat.mod_one]
  · subst h1 h2
    simp [Looping, step, stepTask, replaceAt, hB, Nat.mod_one]
  · subst h1 h2
    simp [Looping, step, stepTask, replaceAt, hB, Stack.Push, mkPackage, Nat.mod_one]

/-- Without name consistency the drain loop need not end: against the source
that answers the lookup of `B` with a record named `X` declaring `B`, the call
from the root `A` declaring `B` is still running after every schedule. -/
theorem dependencyGraph_loops_on_renamed_record (sched : List Nat) :
    (Package.DependencyGraph renamingEnv (mkPackage "A" ["B"]) sched).status
      = Status.running := by
  unfold Package.DependencyGraph
  have h0 : Looping (init (mkPackage "A" ["B"])) := by
    simp [Looping, init, Stack.Push]
  generalize init (mkPackage "A" ["B"]) = s at h0
  induction sched generalizing s with
  | nil => exact h0.1
  | cons c cs ih => exact ih _ (looping_step c s h0)

end EopkgDeps
